import Mathlib

/-
Verification of the order-reconciliation core of the repository
(src/utils.ts: amountsMatch, combinations, getTotalAmount; Joiner.ts:
getExactMatches, getCombinationMatches, getGiftCardMatches,
transactionMatches, Joiner.joinOrders; the second pass over returns).

Shallow embedding conventions:
- JS number amounts are rationals. Non-integer constants are written with
  mkRat so that concrete runs reduce in the kernel.
- Dates are integers (milliseconds since the epoch), matching the getTime
  arithmetic of the source.
- JS toFixed(2) followed by Number is modelled by rounding to the nearest
  multiple of 1/100 with ties toward positive infinity, which is the
  rounding the ECMAScript toFixed specification prescribes.
- JS in-place mutation is modelled by explicit state passing. Mutation by
  object reference is modelled by structural value: removeItem removes the
  first structurally equal element, as the source removes the first
  reference-equal element of cloned, hence distinct, objects.
- JS String.prototype.trim is modelled on the character list of the string.
-/

-- Rat.add, Rat.mul and Rat.sub are irreducible in the library; restore
-- reducibility so that concrete runs of the model evaluate by decide.
attribute [local semireducible] Rat.add Rat.mul Rat.sub

namespace Mal

/-- Item of a shipment or of a return (AmazonClient.ts, interface Item). -/
structure Item where
  description : String
  amount : ℚ
deriving DecidableEq

/-- A shipment of an order (AmazonClient.ts, interface Shipment). -/
structure Shipment where
  trackingId : String
  shipmentDate : ℤ
  amount : ℚ
  items : List Item
deriving DecidableEq

/-- An order (AmazonClient.ts, interface Order). -/
structure Order where
  orderId : String
  orderDate : ℤ
  usedGiftCard : Bool
  shipments : List Shipment
deriving DecidableEq

/-- A return record (AmazonClient.ts, interface Return). -/
structure Return where
  orderId : String
  returnDate : ℤ
  amount : ℚ
  items : List Item
deriving DecidableEq

/-- A pre-existing child of a ledger transaction (MintClient.ts). -/
structure ChildTransaction where
  description : String
  amount : ℚ
deriving DecidableEq

/-- A ledger (mint) transaction (MintClient.ts, interface Transaction). -/
structure Transaction where
  id : String
  amount : ℚ
  date : ℤ
  children : List ChildTransaction
deriving DecidableEq

/-- An item of a joined record (Joiner.ts, interface JoinedRecordItem). -/
structure JoinedRecordItem where
  trackingId : String
  description : String
  amount : ℚ
deriving DecidableEq

/-- The output record of the reconciliation (Joiner.ts, JoinedRecord). -/
structure JoinedRecord where
  mintTransactionId : String
  orderId : String
  orderDate : ℤ
  amount : ℚ
  items : List JoinedRecordItem
  isUnmodified : Bool
deriving DecidableEq

/-- A recorded gift-card balance (Joiner.ts, interface GiftCard). -/
structure GiftCard where
  orderId : String
  amount : ℚ
deriving DecidableEq

/-- Math.abs on rationals. -/
def absQ (q : ℚ) : ℚ := if q < 0 then -q else q

/-- Math.abs on integers (used on millisecond differences). -/
def absZ (n : ℤ) : ℤ := if n < 0 then -n else n

/-- utils.ts amountsMatch: absolute difference below 0.01. -/
def amountsMatch (a b : ℚ) : Bool := decide (absQ (a - b) < mkRat 1 100)

/-- Floor of a rational, as integer division of numerator by denominator. -/
def floorQ (q : ℚ) : ℤ := q.num / q.den

/-- Number(x.toFixed(2)): round to 2 decimal places, ties toward +inf. -/
def roundCents (q : ℚ) : ℚ := Rat.divInt (floorQ (q * 100 + mkRat 1 2)) 100

/-- utils.ts getTotalAmount: sum the amounts, then toFixed(2). The caller
passes the amount fields of the objects the source sums over. -/
def getTotalAmount (amounts : List ℚ) : ℚ :=
  roundCents (amounts.foldl (fun a b => a + b) 0)

/-- Take the elements of the list whose index is a set bit of the mask:
element j is kept when bit j of the mask is one, exactly the subset the
source builds with array.filter((e2, j) => (i + 1) & (1 << j)). -/
def maskFilter {α : Type} : Nat → List α → List α
  | _, [] => []
  | m, x :: xs => if m % 2 = 1 then x :: maskFilter (m / 2) xs else maskFilter (m / 2) xs

/-- utils.ts combinations: the 2 to the n minus 1 nonempty subsets of the
list, subset number i (0-based) being the elements selected by the bits of
the mask i + 1. -/
def combinations {α : Type} (l : List α) : List (List α) :=
  (List.range (2 ^ l.length - 1)).map (fun i => maskFilter (i + 1) l)

/-- Joiner.ts WINDOW_MS, fourteen days of milliseconds. -/
def WINDOW_MS : ℤ := 14 * 24 * 60 * 60 * 1000

/-- Joiner.ts DESCRIPTION_PREFIX. -/
def descPre : String := "Amazon - "

/-- Joiner.ts GIFT_CARD_DESCRIPTION. -/
def giftCardDescription : String := "Gift Card"

/-- Joiner.ts getTimeDelta. -/
def getTimeDelta (a b : ℤ) : ℤ := absZ (a - b)

/-- Joiner.ts inRange with the default fourteen-day window. -/
def inRange (candidate start : ℤ) : Bool :=
  decide (start ≤ candidate ∧ candidate ≤ start + WINDOW_MS)

/-- String.prototype.trim: drop leading and trailing whitespace. -/
def jsTrim (s : String) : String :=
  String.mk (((s.data.dropWhile Char.isWhitespace).reverse.dropWhile Char.isWhitespace).reverse)

/-- Joiner.ts transactionMatches: same number of items as pre-existing
children, and every item finds a child with matching amount (within
tolerance) and equal trimmed description. -/
def transactionMatches (jr : JoinedRecord) (t : Transaction) : Bool :=
  if t.children.length ≠ jr.items.length then false
  else jr.items.all (fun item =>
    (t.children.find? (fun c =>
      amountsMatch c.amount item.amount && (jsTrim c.description == jsTrim item.description))).isSome)

/-- Joiner.ts getExactMatches: single closest-dated debit transaction in the
window whose amount matches the group amount. -/
def getExactMatches (shipments : List Shipment) (amount : ℚ) (amazonOrder : Order)
    (amazonReturns : List Return) (mintTransactions : List Transaction) : List Transaction :=
  let sorted := List.insertionSort
    (fun a b => getTimeDelta a.date amazonOrder.orderDate ≤ getTimeDelta b.date amazonOrder.orderDate)
    (((mintTransactions.filter (fun t => decide (t.amount < 0))).filter
        (fun t => inRange t.date amazonOrder.orderDate)).filter
      (fun t => amountsMatch t.amount amount))
  match sorted with
  | [] => []
  | t :: _ => [t]

/-- Joiner.ts getCombinationMatches: first subset of size at least two of the
date-sorted window debits whose total matches the group amount. -/
def getCombinationMatches (shipments : List Shipment) (amount : ℚ) (amazonOrder : Order)
    (amazonReturns : List Return) (mintTransactions : List Transaction) : List Transaction :=
  let sorted := List.insertionSort
    (fun a b => getTimeDelta a.date amazonOrder.orderDate ≤ getTimeDelta b.date amazonOrder.orderDate)
    ((mintTransactions.filter (fun t => decide (t.amount < 0))).filter
      (fun t => inRange t.date amazonOrder.orderDate))
  let tcs := (combinations sorted).filter (fun c => decide (2 ≤ c.length))
  match tcs.find? (fun c => amountsMatch (getTotalAmount (c.map (fun t => t.amount))) amount) with
  | some c => c
  | none => []

/-- Result of one strategy call: the matched transactions together with the
shipment group and the returns pool as the call leaves them (the gift-card
strategy mutates both in the source). -/
structure MatchResult where
  txMatches : List Transaction
  shipments : List Shipment
  returns : List Return
deriving DecidableEq

/-- Push items onto the item list of the first shipment of the group
(shipments[0].items.push of the source). -/
def pushItemsToHead (shipments : List Shipment) (newItems : List Item) : List Shipment :=
  match shipments with
  | [] => []
  | s :: rest => { s with items := s.items ++ newItems } :: rest

/-- The on-success tail of getGiftCardMatches: balance the matched
transaction by absorbing a matching pending return into the first shipment
of the group, or by appending a synthetic gift-card item to it. -/
def giftCardSuccess (shipments : List Shipment) (amount : ℚ) (amazonReturns : List Return)
    (t : Transaction) : MatchResult :=
  let giftCardAmount := amount - t.amount
  match amazonReturns.find? (fun r => amountsMatch r.amount (-giftCardAmount)) with
  | some mr =>
    ⟨[t], pushItemsToHead shipments (mr.items.map (fun i => ⟨i.description, -i.amount⟩)),
      amazonReturns.erase mr⟩
  | none =>
    ⟨[t], pushItemsToHead shipments [⟨giftCardDescription, roundCents (-giftCardAmount)⟩],
      amazonReturns⟩

/-- Joiner.ts getGiftCardMatches: for a gift-card order, the window debit
with amount above the group amount that is closest to it; on success a
matching pending return is absorbed into the first shipment of the group, or
a synthetic gift-card item is appended to it. -/
def getGiftCardMatches (shipments : List Shipment) (amount : ℚ) (amazonOrder : Order)
    (amazonReturns : List Return) (mintTransactions : List Transaction) : MatchResult :=
  if !amazonOrder.usedGiftCard then ⟨[], shipments, amazonReturns⟩
  else
    let sorted := List.insertionSort
      (fun a b => absQ (a.amount - amount) ≤ absQ (b.amount - amount))
      (((mintTransactions.filter (fun t => decide (t.amount < 0))).filter
          (fun t => inRange t.date amazonOrder.orderDate)).filter
        (fun t => decide (amount < t.amount)))
    match sorted with
    | [] => ⟨[], shipments, amazonReturns⟩
    | t :: _ => giftCardSuccess shipments amount amazonReturns t

/-- The common shape of the three strategies as Joiner.joinOrders calls
them. -/
abbrev Matcher := List Shipment → ℚ → Order → List Return → List Transaction → MatchResult

/-- Wrap a strategy that does not touch the shipment group or the returns
pool. -/
def wrapMatcher
    (f : List Shipment → ℚ → Order → List Return → List Transaction → List Transaction) :
    Matcher :=
  fun shipments amount amazonOrder amazonReturns mintTransactions =>
    ⟨f shipments amount amazonOrder amazonReturns mintTransactions, shipments, amazonReturns⟩

/-- The mutable pools of Joiner.joinOrders during the first phase. -/
structure JoinState where
  txns : List Transaction
  returns : List Return
  records : List JoinedRecord
  giftCards : List GiftCard
deriving DecidableEq

/-- The item pool of a matched shipment group: every item of every shipment,
tagged with the tracking id and the description marker. -/
def flattenItems (shipments : List Shipment) : List JoinedRecordItem :=
  (shipments.map (fun s =>
    s.items.map (fun it =>
      (⟨s.trackingId, descPre ++ it.description, it.amount⟩ : JoinedRecordItem)))).flatten

/-- The exact-subset scan of the item allocator: fold over every subset of
the pool; each subset whose total matches the target overwrites the chosen
allocation and its members are removed from the live pool. -/
def allocateExact (items : List JoinedRecordItem) (target : ℚ) :
    List JoinedRecordItem × List JoinedRecordItem :=
  (combinations items).foldl
    (fun acc combo =>
      if amountsMatch (getTotalAmount (combo.map (fun it => it.amount))) target then
        (combo, combo.foldl (fun pool it => pool.erase it) acc.2)
      else acc)
    ([], items)

/-- The greedy fallback of the item allocator: consume items from the front
while the running remaining amount stays negative. Returns the consumed
items, the rest of the pool, and the final remaining amount. -/
def greedyTake : List JoinedRecordItem → ℚ → List JoinedRecordItem × List JoinedRecordItem × ℚ
  | [], r => ([], [], r)
  | it :: rest, r =>
    if r < 0 then
      let out := greedyTake rest (r - it.amount)
      (it :: out.1, out.2.1, out.2.2)
    else ([], it :: rest, r)

/-- The synthetic balancing item of the fallback path. -/
def balanceAdjustItem (amt : ℚ) : JoinedRecordItem :=
  ⟨"none", descPre ++ "Balance Adjust", amt⟩

/-- The item allocator of Joiner.joinOrders: exact-subset scan, else greedy
fallback with a synthetic balancing item when the leftover is outside
tolerance. Returns the allocation and the leftover pool. -/
def allocate (items : List JoinedRecordItem) (target : ℚ) :
    List JoinedRecordItem × List JoinedRecordItem :=
  let out := allocateExact items target
  if out.1.isEmpty then
    let g := greedyTake out.2 target
    if amountsMatch g.2.2 0 then (g.1, g.2.1)
    else (g.1 ++ [balanceAdjustItem g.2.2], g.2.1)
  else out

/-- Handle one matched transaction: allocate items, record gift-card items,
build the joined record, and remove the transaction from the pool. Returns
the new state and the leftover item pool. -/
def consumeMatch (amazonOrder : Order) (st : JoinState) (items : List JoinedRecordItem)
    (m : Transaction) : JoinState × List JoinedRecordItem :=
  let out := allocate items m.amount
  let gcs := (out.1.filter (fun it => it.description == descPre ++ giftCardDescription)).map
    (fun it => (⟨amazonOrder.orderId, it.amount⟩ : GiftCard))
  let jr0 : JoinedRecord :=
    ⟨m.id, amazonOrder.orderId, amazonOrder.orderDate, m.amount, out.1, false⟩
  let jr1 := { jr0 with isUnmodified := transactionMatches jr0 m }
  (⟨st.txns.erase m, st.returns, st.records ++ [jr1], st.giftCards ++ gcs⟩, out.2)

/-- Handle every transaction of a strategy result for one shipment group. -/
def processMatches (amazonOrder : Order) (st : JoinState) (updatedShipments : List Shipment)
    (ms : List Transaction) : JoinState :=
  (ms.foldl (fun acc m => consumeMatch amazonOrder acc.1 acc.2 m)
    (st, flattenItems updatedShipments)).1

/-- Scan the shipment subsets of an order in reverse mask order and return
the first one the strategy matches, with the strategy result. A failed
strategy call leaves the pools unchanged in the source, so every call is
made against the same state. -/
def findMatchSubset (m : Matcher) (amazonOrder : Order) (st : JoinState) :
    Option (List Shipment × MatchResult) :=
  (combinations amazonOrder.shipments).reverse.findSome? (fun subset =>
    let res := m subset (getTotalAmount (subset.map (fun s => s.amount))) amazonOrder
      st.returns st.txns
    if res.txMatches.isEmpty then none else some (subset, res))

/-- One body of the dirty loop: find a matching shipment subset, process its
matches, and remove the matched shipments from the order. -/
def applyMatch (m : Matcher) (amazonOrder : Order) (st : JoinState) :
    Option (Order × JoinState) :=
  match findMatchSubset m amazonOrder st with
  | none => none
  | some (subset, res) =>
    let st1 : JoinState := ⟨st.txns, res.returns, st.records, st.giftCards⟩
    let st2 := processMatches amazonOrder st1 res.shipments res.txMatches
    some ({ amazonOrder with
             shipments := subset.foldl (fun l s => l.erase s) amazonOrder.shipments }, st2)

/-- The dirty loop of Joiner.joinOrders for one order: repeat until no
shipment subset matches. Each pass through the body removes at least one
shipment, so the fuel one above the shipment count is never exhausted. -/
def processOrderLoop (m : Matcher) : Nat → Order → JoinState → Order × JoinState
  | 0, o, st => (o, st)
  | fuel + 1, o, st =>
    match applyMatch m o st with
    | none => (o, st)
    | some (o2, st2) => processOrderLoop m fuel o2 st2

/-- One strategy pass over the order list. An order whose shipments were
exhausted by a match is dropped from the pool, exactly when the source runs
removeItem(amazonOrders, amazonOrder): after a match that left the order
without shipments. -/
def scanOrders (m : Matcher) : List Order → JoinState → List Order × JoinState
  | [], st => ([], st)
  | o :: rest, st =>
    let out := processOrderLoop m (o.shipments.length + 1) o st
    let next := scanOrders m rest out.2
    (if out.1.shipments.isEmpty && !o.shipments.isEmpty then next.1
     else out.1 :: next.1, next.2)

/-- The three strategies in their fixed priority. -/
def matchers : List Matcher :=
  [wrapMatcher getExactMatches, wrapMatcher getCombinationMatches, getGiftCardMatches]

/-- Run each strategy pass in turn over the surviving orders. -/
def runMatchers : List Matcher → List Order → JoinState → List Order × JoinState
  | [], os, st => (os, st)
  | m :: ms, os, st =>
    let out := scanOrders m os st
    runMatchers ms out.1 out.2

/-- The condition of the second pass: some recorded gift card explains the
difference, or the transaction amount matches the return amount. -/
def returnMatchCond (giftCards : List GiftCard) (r : Return) (t : Transaction) : Bool :=
  (giftCards.find? (fun g => amountsMatch t.amount (r.amount - g.amount))).isSome
    || amountsMatch t.amount r.amount

/-- The joined record of the second pass: the return items negated, plus a
negated gift-card item when a recorded gift card was used. -/
def mkReturnRecord (giftCards : List GiftCard) (r : Return) (t : Transaction) : JoinedRecord :=
  let base := r.items.map (fun i =>
    (⟨"none", descPre ++ i.description, -i.amount⟩ : JoinedRecordItem))
  let items := match giftCards.find? (fun g => amountsMatch t.amount (r.amount - g.amount)) with
    | some g => base ++ [⟨"none", descPre ++ giftCardDescription, -g.amount⟩]
    | none => base
  let jr0 : JoinedRecord := ⟨t.id, r.orderId, r.returnDate, t.amount, items, false⟩
  { jr0 with isUnmodified := transactionMatches jr0 t }

/-- The second pass of Joiner.joinOrders: pair each remaining return with
the first remaining transaction the condition accepts, consuming both.
Returns the surviving returns, the surviving transactions, and the grown
record list. -/
def matchReturns (giftCards : List GiftCard) :
    List Return → List Transaction → List JoinedRecord →
      List Return × List Transaction × List JoinedRecord
  | [], txns, recs => ([], txns, recs)
  | r :: rest, txns, recs =>
    match txns.find? (fun t => returnMatchCond giftCards r t) with
    | none =>
      let out := matchReturns giftCards rest txns recs
      (r :: out.1, out.2.1, out.2.2)
    | some t =>
      matchReturns giftCards rest (txns.erase t) (recs ++ [mkReturnRecord giftCards r t])

/-- The full output of a reconciliation run. The first four fields are the
return value of Joiner.joinOrders. callerAmazonReturns models the contents
of the returns array the caller passed in, after the run: the source deep
copies the transactions and orders on entry but copies the returns only
after the first phase, whose gift-card strategy removes absorbed returns
from the array of the caller. -/
structure JoinResult where
  joinedRecords : List JoinedRecord
  remainingMintTransactions : List Transaction
  remainingAmazonOrders : List Order
  remainingAmazonReturns : List Return
  callerAmazonReturns : List Return
deriving DecidableEq

/-- Joiner.joinOrders: sort the orders by descending shipment total, run the
three strategy passes, then the second pass over the returns, and sort the
records by date. -/
def joinOrders (mintTransactions : List Transaction) (amazonOrders : List Order)
    (amazonReturns : List Return) : JoinResult :=
  let sortedOrders := List.insertionSort
    (fun a b => getTotalAmount (b.shipments.map (fun s => s.amount)) ≤
      getTotalAmount (a.shipments.map (fun s => s.amount))) amazonOrders
  let out := runMatchers matchers sortedOrders ⟨mintTransactions, amazonReturns, [], []⟩
  let st1 := out.2
  let fin := matchReturns st1.giftCards st1.returns st1.txns st1.records
  { joinedRecords := List.insertionSort (fun a b => a.orderDate ≤ b.orderDate) fin.2.2
    remainingMintTransactions := fin.2.1
    remainingAmazonOrders := out.1
    remainingAmazonReturns := fin.1
    callerAmazonReturns := st1.returns }


/-
Subset generator: lemmas and claim C7.
-/

/-- From the claim: the subset selected by a mask, with input element j
included iff bit j of the mask is set. -/
def bitmaskSelect {α : Type} (m : Nat) (l : List α) : List α :=
  (l.enum.filter (fun p => m.testBit p.1)).map Prod.snd

theorem maskFilter_cons_odd {α : Type} {m : Nat} (h : m % 2 = 1) (x : α) (xs : List α) :
    maskFilter m (x :: xs) = x :: maskFilter (m / 2) xs := by
  simp [maskFilter, h]

theorem maskFilter_cons_even {α : Type} {m : Nat} (h : ¬m % 2 = 1) (x : α) (xs : List α) :
    maskFilter m (x :: xs) = maskFilter (m / 2) xs := by
  simp [maskFilter, h]

theorem maskFilter_sublist {α : Type} (m : Nat) (l : List α) :
    (maskFilter m l).Sublist l := by
  induction l generalizing m with
  | nil => simp [maskFilter]
  | cons x xs ih =>
    by_cases h : m % 2 = 1
    · rw [maskFilter_cons_odd h]
      exact (ih (m / 2)).cons₂ x
    · rw [maskFilter_cons_even h]
      exact (ih (m / 2)).cons x

theorem maskFilter_enumFrom {α : Type} (m n : Nat) (l : List α) :
    ((l.enumFrom n).filter (fun p => m.testBit (p.1 - n))).map Prod.snd = maskFilter m l := by
  induction l generalizing m n with
  | nil => simp [maskFilter]
  | cons x xs ih =>
    rw [List.enumFrom_cons, List.filter_cons]
    have htail : ((xs.enumFrom (n + 1)).filter (fun p => m.testBit (p.1 - n))) =
        ((xs.enumFrom (n + 1)).filter (fun p => (m / 2).testBit (p.1 - (n + 1)))) := by
      apply List.filter_congr
      intro p hp
      obtain ⟨i, a⟩ := p
      obtain ⟨h1, _, _⟩ := List.mem_enumFrom hp
      have hidx : i - n = (i - (n + 1)) + 1 := by omega
      rw [hidx, Nat.testBit_succ]
    by_cases h : m % 2 = 1
    · simp [Nat.sub_self, Nat.testBit_zero, h, htail, ih, maskFilter_cons_odd h]
    · simp [Nat.sub_self, Nat.testBit_zero, h, htail, ih, maskFilter_cons_even h]

theorem bitmaskSelect_eq_maskFilter {α : Type} (m : Nat) (l : List α) :
    bitmaskSelect m l = maskFilter m l := by
  have h := maskFilter_enumFrom m 0 l
  simpa [bitmaskSelect, List.enum] using h

theorem combinations_length {α : Type} (l : List α) :
    (combinations l).length = 2 ^ l.length - 1 := by
  simp [combinations]

theorem combinations_getElem {α : Type} (l : List α) (i : Nat) (hi : i < 2 ^ l.length - 1) :
    (combinations l)[i]? = some (maskFilter (i + 1) l) := by
  simp [combinations, List.getElem?_map, List.getElem?_range hi]

theorem sublist_of_mem_combinations {α : Type} {c l : List α} (h : c ∈ combinations l) :
    c.Sublist l := by
  simp only [combinations, List.mem_map, List.mem_range] at h
  obtain ⟨i, _, rfl⟩ := h
  exact maskFilter_sublist _ l

theorem maskFilter_ne_nil {α : Type} {m : Nat} {l : List α} (h1 : 1 ≤ m)
    (h2 : m < 2 ^ l.length) : maskFilter m l ≠ [] := by
  induction l generalizing m with
  | nil => simp at h2; omega
  | cons x xs ih =>
    by_cases h : m % 2 = 1
    · rw [maskFilter_cons_odd h]
      simp
    · rw [maskFilter_cons_even h]
      have hp : 2 ^ (x :: xs).length = 2 ^ xs.length * 2 := by
        simp [List.length_cons, pow_succ]
      apply ih <;> omega

theorem ne_nil_of_mem_combinations {α : Type} {c l : List α} (h : c ∈ combinations l) :
    c ≠ [] := by
  simp only [combinations, List.mem_map, List.mem_range] at h
  obtain ⟨i, hi, rfl⟩ := h
  have hlen : 0 < 2 ^ l.length := Nat.pos_pow_of_pos _ (by omega)
  exact maskFilter_ne_nil (by omega) (by omega)

theorem sublist_eq_maskFilter {α : Type} {s l : List α} (h : s.Sublist l) :
    ∃ m, m < 2 ^ l.length ∧ maskFilter m l = s ∧ (s ≠ [] → 1 ≤ m) := by
  induction h with
  | slnil => exact ⟨0, by simp [maskFilter], by simp [maskFilter], by simp⟩
  | @cons l₁ l₂ a _ ih =>
    obtain ⟨m, hm, he, hne⟩ := ih
    have hdiv : (2 * m) / 2 = m := by omega
    refine ⟨2 * m, ?_, ?_, ?_⟩
    · have hp : 2 ^ (a :: l₂).length = 2 ^ l₂.length * 2 := by
        simp [List.length_cons, pow_succ]
      omega
    · rw [maskFilter_cons_even (by omega), hdiv]
      exact he
    · intro hs
      have := hne hs
      omega
  | @cons₂ l₁ l₂ a _ ih =>
    obtain ⟨m, hm, he, _⟩ := ih
    have hdiv : (2 * m + 1) / 2 = m := by omega
    refine ⟨2 * m + 1, ?_, ?_, by omega⟩
    · have hp : 2 ^ (a :: l₂).length = 2 ^ l₂.length * 2 := by
        simp [List.length_cons, pow_succ]
      omega
    · rw [maskFilter_cons_odd (by omega), hdiv, he]

theorem mem_combinations_of_sublist {α : Type} {s l : List α} (h : s.Sublist l)
    (hne : s ≠ []) : s ∈ combinations l := by
  obtain ⟨m, hm, he, h1⟩ := sublist_eq_maskFilter h
  have h1 := h1 hne
  simp only [combinations, List.mem_map, List.mem_range]
  exact ⟨m - 1, by omega, by rw [Nat.sub_add_cancel h1]; exact he⟩

/-- C7: combinations returns exactly 2 to the n minus 1 subsets, the one at
index i being the elements selected by the bits of mask i + 1 (element j
included iff bit j is set), each subset preserving the relative order of the
input, and the empty input yields no subsets. -/
theorem C7_combinations_contract {α : Type} (l : List α) (i : Nat)
    (hi : i < 2 ^ l.length - 1) :
    (combinations l).length = 2 ^ l.length - 1 ∧
      (combinations l)[i]? = some (bitmaskSelect (i + 1) l) ∧
      (∀ c ∈ combinations l, c.Sublist l) ∧
      combinations ([] : List α) = [] := by
  refine ⟨combinations_length l, ?_, fun c hc => sublist_of_mem_combinations hc, rfl⟩
  rw [bitmaskSelect_eq_maskFilter]
  exact combinations_getElem l i hi

/-- Witness for C7 at a concrete two-element input. -/
theorem C7_combinations_contract_witness :
    (combinations [(1 : ℚ), 2]).length = 2 ^ ([(1 : ℚ), 2].length) - 1 ∧
      (combinations [(1 : ℚ), 2])[0]? = some (bitmaskSelect 1 [(1 : ℚ), 2]) ∧
      (∀ c ∈ combinations [(1 : ℚ), 2], c.Sublist [(1 : ℚ), 2]) ∧
      combinations ([] : List ℚ) = [] :=
  C7_combinations_contract [(1 : ℚ), 2] 0 (by decide)

/-
Ordering of the output records: claim C10.
-/

theorem mkReturnRecord_orderDate (gcs : List GiftCard) (r : Return) (t : Transaction) :
    (mkReturnRecord gcs r t).orderDate = r.returnDate := by
  simp only [mkReturnRecord]

theorem matchReturns_records_orderDate (gcs : List GiftCard) (rs : List Return)
    (ts : List Transaction) (recs : List JoinedRecord) :
    ∀ jr ∈ (matchReturns gcs rs ts recs).2.2,
      jr ∈ recs ∨ ∃ r ∈ rs, jr.orderDate = r.returnDate := by
  induction rs generalizing ts recs with
  | nil =>
    intro jr hjr
    simp only [matchReturns] at hjr
    exact Or.inl hjr
  | cons r rest ih =>
    intro jr hjr
    simp only [matchReturns] at hjr
    cases hfind : ts.find? (fun t => returnMatchCond gcs r t) with
    | none =>
      rw [hfind] at hjr
      rcases ih ts recs jr hjr with h | ⟨r2, hr2, he⟩
      · exact Or.inl h
      · exact Or.inr ⟨r2, List.mem_cons_of_mem r hr2, he⟩
    | some t =>
      rw [hfind] at hjr
      rcases ih (ts.erase t) (recs ++ [mkReturnRecord gcs r t]) jr hjr with h | ⟨r2, hr2, he⟩
      · rcases List.mem_append.mp h with h2 | h2
        · exact Or.inl h2
        · have : jr = mkReturnRecord gcs r t := by simpa using h2
          exact Or.inr ⟨r, List.mem_cons_self r rest, by rw [this, mkReturnRecord_orderDate]⟩
      · exact Or.inr ⟨r2, List.mem_cons_of_mem r hr2, he⟩

/-- C10: the joined records returned by joinOrders are sorted by
non-decreasing orderDate, and a record built by the second pass carries the
returnDate of its return as its orderDate. -/
theorem C10_joined_records_sorted (mintTransactions : List Transaction)
    (amazonOrders : List Order) (amazonReturns : List Return) :
    (joinOrders mintTransactions amazonOrders amazonReturns).joinedRecords.Sorted
        (fun a b => a.orderDate ≤ b.orderDate) ∧
      (∀ gcs rs ts recs, ∀ jr ∈ (matchReturns gcs rs ts recs).2.2,
        jr ∈ recs ∨ ∃ r ∈ rs, jr.orderDate = r.returnDate) := by
  constructor
  · haveI : IsTotal JoinedRecord (fun a b => a.orderDate ≤ b.orderDate) :=
      ⟨fun a b => le_total a.orderDate b.orderDate⟩
    haveI : IsTrans JoinedRecord (fun a b => a.orderDate ≤ b.orderDate) :=
      ⟨fun _ _ _ hab hbc => le_trans hab hbc⟩
    simp only [joinOrders]
    exact List.sorted_insertionSort _ _
  · exact fun gcs rs ts recs => matchReturns_records_orderDate gcs rs ts recs

/-
Gift-card strategy: claims C3 and C4.
-/

theorem giftCardSort_min (amount : ℚ) (l : List Transaction) (t : Transaction)
    (rest : List Transaction)
    (h : List.insertionSort (fun a b => absQ (a.amount - amount) ≤ absQ (b.amount - amount)) l
      = t :: rest) :
    t ∈ l ∧ ∀ u ∈ l, absQ (t.amount - amount) ≤ absQ (u.amount - amount) := by
  haveI : IsTotal Transaction
      (fun a b => absQ (a.amount - amount) ≤ absQ (b.amount - amount)) :=
    ⟨fun a b => le_total _ _⟩
  haveI : IsTrans Transaction
      (fun a b => absQ (a.amount - amount) ≤ absQ (b.amount - amount)) :=
    ⟨fun _ _ _ hab hbc => le_trans hab hbc⟩
  have hperm := List.perm_insertionSort
    (fun a b : Transaction => absQ (a.amount - amount) ≤ absQ (b.amount - amount)) l
  have hsorted := List.sorted_insertionSort
    (fun a b : Transaction => absQ (a.amount - amount) ≤ absQ (b.amount - amount)) l
  rw [h] at hperm hsorted
  constructor
  · exact hperm.subset (List.mem_cons_self t rest)
  · intro u hu
    rcases List.mem_cons.mp (hperm.mem_iff.mpr hu) with rfl | h2
    · exact le_refl _
    · exact List.rel_of_sorted_cons hsorted u h2

theorem getGiftCardMatches_txMatches (shipments : List Shipment) (amount : ℚ)
    (amazonOrder : Order) (amazonReturns : List Return)
    (mintTransactions : List Transaction) :
    (getGiftCardMatches shipments amount amazonOrder amazonReturns
        mintTransactions).txMatches =
      if amazonOrder.usedGiftCard then
        match List.insertionSort (fun a b => absQ (a.amount - amount) ≤ absQ (b.amount - amount))
            (((mintTransactions.filter (fun t => decide (t.amount < 0))).filter
                (fun t => inRange t.date amazonOrder.orderDate)).filter
              (fun t => decide (amount < t.amount))) with
        | [] => []
        | t :: _ => [t]
      else [] := by
  by_cases hg : amazonOrder.usedGiftCard
  · simp only [getGiftCardMatches, hg, if_true, Bool.not_true, Bool.false_eq_true, if_false]
    cases List.insertionSort (fun a b => absQ (a.amount - amount) ≤ absQ (b.amount - amount))
        (((mintTransactions.filter (fun t => decide (t.amount < 0))).filter
            (fun t => inRange t.date amazonOrder.orderDate)).filter
          (fun t => decide (amount < t.amount))) with
    | nil => rfl
    | cons t0 tl =>
      show (giftCardSuccess shipments amount amazonReturns t0).txMatches = [t0]
      simp only [giftCardSuccess]
      cases amazonReturns.find? (fun r => amountsMatch r.amount (-(amount - t0.amount))) with
      | none => rfl
      | some mr => rfl
  · have hgf : amazonOrder.usedGiftCard = false := by
      cases h : amazonOrder.usedGiftCard
      · rfl
      · rw [h] at hg; cases hg rfl
    simp [getGiftCardMatches, hgf]

set_option maxHeartbeats 1000000 in
/-- Amended C3: the strategy returns nothing without the gift-card flag; a
returned transaction is a window debit whose amount exceeds the candidate
amount (for debits, an absolute amount below the absolute candidate amount),
and of all such candidates it has the least absolute difference to the
candidate amount. -/
theorem C3_gift_card_selection (shipments : List Shipment) (amount : ℚ)
    (amazonOrder : Order) (amazonReturns : List Return)
    (mintTransactions : List Transaction) :
    (amazonOrder.usedGiftCard = false →
      (getGiftCardMatches shipments amount amazonOrder amazonReturns
        mintTransactions).txMatches = []) ∧
    (∀ t rest,
      (getGiftCardMatches shipments amount amazonOrder amazonReturns
        mintTransactions).txMatches = t :: rest →
      t ∈ mintTransactions ∧ t.amount < 0 ∧ inRange t.date amazonOrder.orderDate = true ∧
        amount < t.amount ∧
        ∀ u ∈ mintTransactions, u.amount < 0 → inRange u.date amazonOrder.orderDate = true →
          amount < u.amount → absQ (t.amount - amount) ≤ absQ (u.amount - amount)) := by
  by_cases hg : amazonOrder.usedGiftCard
  · constructor
    · intro hfalse
      rw [hfalse] at hg
      cases hg
    · intro t rest heq
      rw [getGiftCardMatches_txMatches, if_pos hg] at heq
      cases hs : List.insertionSort
          (fun a b => absQ (a.amount - amount) ≤ absQ (b.amount - amount))
          (((mintTransactions.filter (fun t => decide (t.amount < 0))).filter
              (fun t => inRange t.date amazonOrder.orderDate)).filter
            (fun t => decide (amount < t.amount))) with
      | nil =>
        rw [hs] at heq
        cases heq
      | cons t0 tl =>
        rw [hs] at heq
        have ht0 : t = t0 := ((List.cons.injEq ..).mp heq).1.symm
        subst ht0
        obtain ⟨hmem, hmin⟩ := giftCardSort_min amount _ t tl hs
        have h3 := List.mem_filter.mp hmem
        have h2 := List.mem_filter.mp h3.1
        have h1 := List.mem_filter.mp h2.1
        refine ⟨h1.1, of_decide_eq_true h1.2, h2.2, of_decide_eq_true h3.2, ?_⟩
        intro u hu hun hur hua
        apply hmin
        exact List.mem_filter.mpr ⟨List.mem_filter.mpr
          ⟨List.mem_filter.mpr ⟨hu, decide_eq_true hun⟩, hur⟩, decide_eq_true hua⟩
  · have hgf : amazonOrder.usedGiftCard = false := by
      cases h : amazonOrder.usedGiftCard
      · rfl
      · rw [h] at hg; cases hg rfl
    constructor
    · intro _
      simp [getGiftCardMatches, hgf]
    · intro t rest heq
      simp [getGiftCardMatches, hgf] at heq

/-- The concrete gift-card scenario of the spec: order flagged usedGiftCard
with one shipment of total -55.00, and a single debit of -40.00 five days
after the order date. -/
def gcOrderC : Order := ⟨"o1", 0, true, [⟨"T1", 0, -55, [⟨"a", -55⟩]⟩]⟩

/-- The sole debit transaction of the gift-card scenario. -/
def gcTxnC : Transaction := ⟨"t1", -40, 432000000, [⟨"AMZN", -40⟩]⟩

/-- Counterexample to C3 as stated: the strategy does return the -40.00
debit, whose absolute amount does not exceed the absolute candidate amount
55.00. -/
theorem C3_counterexample :
    (getGiftCardMatches gcOrderC.shipments (-55) gcOrderC [] [gcTxnC]).txMatches = [gcTxnC] ∧
      ¬ (absQ gcTxnC.amount > absQ (-55 : ℚ)) := by decide

/-- Witness for the amended C3 at the concrete scenario. -/
theorem C3_gift_card_selection_witness :
    gcTxnC ∈ [gcTxnC] ∧ gcTxnC.amount < 0 ∧ inRange gcTxnC.date gcOrderC.orderDate = true ∧
      (-55 : ℚ) < gcTxnC.amount ∧
      ∀ u ∈ [gcTxnC], u.amount < 0 → inRange u.date gcOrderC.orderDate = true →
        (-55 : ℚ) < u.amount →
        absQ (gcTxnC.amount - (-55)) ≤ absQ (u.amount - (-55)) :=
  (C3_gift_card_selection gcOrderC.shipments (-55) gcOrderC [] [gcTxnC]).2 gcTxnC []
    (by decide)

/-- Counterexample to C4 as stated: in the scenario the appended synthetic
item has amount 15.00, and no item of amount -15.00 appears. -/
theorem C4_counterexample :
    (getGiftCardMatches gcOrderC.shipments (-55) gcOrderC [] [gcTxnC]).txMatches = [gcTxnC] ∧
      ((getGiftCardMatches gcOrderC.shipments (-55) gcOrderC [] [gcTxnC]).shipments.map
        (fun s => s.items)) = [[⟨"a", -55⟩, ⟨"Gift Card", 15⟩]] ∧
      ¬ ((⟨"Gift Card", -15⟩ : Item) ∈
        ((getGiftCardMatches gcOrderC.shipments (-55) gcOrderC [] [gcTxnC]).shipments.map
          (fun s => s.items)).flatten) := by decide

/-- Amended C4: in the scenario the strategy matches the -40.00 debit and
appends a synthetic Gift Card item of amount 15.00 (the negated uncovered
delta) to the first shipment of the group. -/
theorem C4_gift_card_scenario :
    getGiftCardMatches gcOrderC.shipments (-55) gcOrderC [] [gcTxnC] =
      ⟨[gcTxnC], [⟨"T1", 0, -55, [⟨"a", -55⟩, ⟨"Gift Card", 15⟩]⟩], []⟩ := by decide

/-
Item allocator exact-subset scan: claim C6.
-/

theorem allocateExact_fold (target : ℚ) (L : List (List JoinedRecordItem))
    (m0 p0 : List JoinedRecordItem) :
    L.foldl (fun acc combo =>
        if amountsMatch (getTotalAmount (combo.map (fun it => it.amount))) target then
          (combo, combo.foldl (fun pool it => pool.erase it) acc.2)
        else acc) (m0, p0) =
      ((L.filter (fun c =>
          amountsMatch (getTotalAmount (c.map (fun it => it.amount))) target)).foldl
        (fun _ c => c) m0,
       (L.filter (fun c =>
          amountsMatch (getTotalAmount (c.map (fun it => it.amount))) target)).foldl
        (fun pool c => c.foldl (fun p it => p.erase it) pool) p0) := by
  induction L generalizing m0 p0 with
  | nil => rfl
  | cons c L ih =>
    by_cases h : amountsMatch (getTotalAmount (c.map (fun it => it.amount))) target
    · simp [List.filter_cons, h, ih]
    · simp [List.filter_cons, h, ih]

theorem foldl_pick_last {α : Type} (l : List α) (m0 : α) (h : l ≠ []) :
    l.foldl (fun _ c => c) m0 = l.getLast h := by
  induction l generalizing m0 with
  | nil => cases h rfl
  | cons c l ih =>
    cases l with
    | nil => rfl
    | cons d l2 =>
      rw [List.foldl_cons, ih c (by simp)]
      exact (List.getLast_cons (by simp : d :: l2 ≠ [])).symm

theorem eraseAll_sublist {α : Type} [DecidableEq α] (c : List α) (pool : List α) :
    (c.foldl (fun p it => p.erase it) pool).Sublist pool := by
  induction c generalizing pool with
  | nil => exact List.Sublist.refl pool
  | cons it c ih =>
    exact (ih (pool.erase it)).trans (List.erase_sublist it pool)

theorem eraseAllFold_sublist {α : Type} [DecidableEq α] (L : List (List α)) (pool : List α) :
    (L.foldl (fun p c => c.foldl (fun p2 it => p2.erase it) p) pool).Sublist pool := by
  induction L generalizing pool with
  | nil => exact List.Sublist.refl pool
  | cons c L ih =>
    exact (ih _).trans (eraseAll_sublist c pool)

theorem allocateExact_eq (items : List JoinedRecordItem) (target : ℚ) :
    allocateExact items target =
      (((combinations items).filter
          (fun c => amountsMatch (getTotalAmount (c.map (fun it => it.amount))) target)).foldl
        (fun _ c => c) [],
       ((combinations items).filter
          (fun c => amountsMatch (getTotalAmount (c.map (fun it => it.amount))) target)).foldl
        (fun pool c => c.foldl (fun p it => p.erase it) pool) items) := by
  rw [allocateExact]
  exact allocateExact_fold target (combinations items) [] items

/-- The subsets of the item pool whose total matches the target, in the
mask-ascending order the allocator scans them. -/
def matchingCombos (items : List JoinedRecordItem) (target : ℚ) :
    List (List JoinedRecordItem) :=
  (combinations items).filter
    (fun c => amountsMatch (getTotalAmount (c.map (fun it => it.amount))) target)

theorem allocateExact_eq2 (items : List JoinedRecordItem) (target : ℚ) :
    allocateExact items target =
      ((matchingCombos items target).foldl (fun _ c => c) [],
       (matchingCombos items target).foldl
        (fun pool c => c.foldl (fun p it => p.erase it) pool) items) :=
  allocateExact_eq items target

/-- Amended C6: when at least one subset of the pool totals the target
within tolerance, the allocation is the last such subset in mask-ascending
enumeration order, but the final pool is the pool with the members of EVERY
matching subset removed as each one is found (a pool that is a sublist of
the input pool), not merely the members of the final allocation. -/
theorem C6_allocator_last_match (items : List JoinedRecordItem) (target : ℚ)
    (hne : matchingCombos items target ≠ []) :
    (allocateExact items target).1 = (matchingCombos items target).getLast hne ∧
    (allocateExact items target).2 =
      (matchingCombos items target).foldl
        (fun pool c => c.foldl (fun p it => p.erase it) pool) items ∧
    (allocateExact items target).2.Sublist items := by
  refine ⟨?_, ?_, ?_⟩
  · rw [allocateExact_eq2]
    exact foldl_pick_last _ [] hne
  · rw [allocateExact_eq2]
  · rw [allocateExact_eq2]
    exact eraseAllFold_sublist _ items

/-- First item of the C6 counterexample pool. -/
def cexItemA : JoinedRecordItem := ⟨"s1", "Amazon - a", -10⟩

/-- Second item of the C6 counterexample pool. -/
def cexItemB : JoinedRecordItem := ⟨"s1", "Amazon - b", -10⟩

/-- Counterexample to C6 as stated: with pool [a, b] where both items have
amount -10 and target -10, the allocation is the last matching subset [b],
yet item a, which is not in that final allocation, has also been removed
from the pool. -/
theorem C6_counterexample :
    (allocateExact [cexItemA, cexItemB] (-10)).1 = [cexItemB] ∧
      cexItemA ∉ (allocateExact [cexItemA, cexItemB] (-10)).1 ∧
      cexItemA ∉ (allocateExact [cexItemA, cexItemB] (-10)).2 := by decide

/-- Witness for the amended C6 at a singleton pool. -/
theorem C6_allocator_last_match_witness :
    (allocateExact [cexItemA] (-10)).1 =
      (matchingCombos [cexItemA] (-10)).getLast (by decide) ∧
    (allocateExact [cexItemA] (-10)).2 =
      (matchingCombos [cexItemA] (-10)).foldl
        (fun pool c => c.foldl (fun p it => p.erase it) pool) [cexItemA] ∧
    (allocateExact [cexItemA] (-10)).2.Sublist [cexItemA] :=
  C6_allocator_last_match [cexItemA] (-10) (by decide)

/-
isUnmodified: claim C2.
-/

/-- From the claim: the multiset of (amount, trimmed description) pairs of
the items of a record. -/
def itemPairs (items : List JoinedRecordItem) : Multiset (ℚ × String) :=
  Multiset.ofList (items.map (fun it => (it.amount, jsTrim it.description)))

/-- From the claim: the multiset of (amount, trimmed description) pairs of
the pre-existing children of a transaction. -/
def childPairs (children : List ChildTransaction) : Multiset (ℚ × String) :=
  Multiset.ofList (children.map (fun c => (c.amount, jsTrim c.description)))

/-- Amended C2: transactionMatches, which joinOrders stores as isUnmodified,
holds iff the child count equals the item count and every item has at least
one child with amount within the 0.01 tolerance and equal trimmed
description; this find-based check is weaker than multiset equality of
(amount, trimmed description) pairs. -/
theorem C2_transactionMatches_iff (jr : JoinedRecord) (t : Transaction) :
    transactionMatches jr t = true ↔
      (t.children.length = jr.items.length ∧
        ∀ item ∈ jr.items, ∃ c ∈ t.children,
          absQ (c.amount - item.amount) < mkRat 1 100 ∧
            jsTrim c.description = jsTrim item.description) := by
  simp only [transactionMatches]
  by_cases h : t.children.length = jr.items.length
  · rw [if_neg (by omega)]
    simp only [List.all_eq_true, List.find?_isSome, Bool.and_eq_true, beq_iff_eq,
      amountsMatch, decide_eq_true_eq, h, true_and]
  · rw [if_pos (by omega)]
    simp only [Bool.false_eq_true, false_iff, not_and]
    intro hc
    exact absurd hc h

/-- The order of the C2 counterexample run. -/
def c2Order : Order := ⟨"o1", 0, false, [⟨"T", 0, -10, [⟨"a", -10⟩]⟩]⟩

/-- The transaction of the C2 counterexample run: amount -10.005, inside the
0.01 tolerance of the -10.00 shipment, with one matching child. -/
def c2Txn : Transaction :=
  ⟨"t1", mkRat (-2001) 200, 172800000, [⟨"Amazon - a", mkRat (-2001) 200⟩]⟩

/-- The record the C2 counterexample run produces. -/
def c2Record : JoinedRecord :=
  ⟨"t1", "o1", 0, mkRat (-2001) 200, [⟨"T", "Amazon - a", -10⟩], true⟩

/-- Counterexample to C2 as stated: the run marks the record isUnmodified,
yet the multiset of (amount, trimmed description) pairs of its items differs
from that of the children of the matched transaction (-10.00 against
-10.005, equal only within tolerance). -/
theorem C2_counterexample :
    (joinOrders [c2Txn] [c2Order] []).joinedRecords = [c2Record] ∧
      c2Record.isUnmodified = true ∧
      itemPairs c2Record.items ≠ childPairs c2Txn.children := by decide

/-
Caller isolation: claim C5.
-/

/-- Unpack a successful subset search: the subset is a nonempty sublist of
the shipments of the order, and the result is the strategy call on it
against the current pools. -/
theorem findMatchSubset_eq_some {m : Matcher} {o : Order} {st : JoinState}
    {subset : List Shipment} {res : MatchResult}
    (h : findMatchSubset m o st = some (subset, res)) :
    subset.Sublist o.shipments ∧ subset ≠ [] ∧
      res = m subset (getTotalAmount (subset.map (fun s => s.amount))) o st.returns st.txns ∧
      res.txMatches ≠ [] := by
  simp only [findMatchSubset] at h
  obtain ⟨a, ha, hf⟩ := List.exists_of_findSome?_eq_some h
  have hmem : a ∈ combinations o.shipments := List.mem_reverse.mp ha
  by_cases he :
      (m a (getTotalAmount (a.map (fun s => s.amount))) o st.returns st.txns).txMatches.isEmpty
  · rw [if_pos he] at hf
    cases hf
  · rw [if_neg he] at hf
    simp only [Option.some.injEq, Prod.mk.injEq] at hf
    obtain ⟨rfl, hres⟩ := hf
    refine ⟨sublist_of_mem_combinations hmem, ne_nil_of_mem_combinations hmem, hres.symm, ?_⟩
    rw [← hres]
    intro hnil
    exact he (by rw [hnil]; rfl)

theorem applyMatch_some {m : Matcher} {o : Order} {st : JoinState} {o2 : Order}
    {st2 : JoinState} (h : applyMatch m o st = some (o2, st2)) :
    ∃ subset res, findMatchSubset m o st = some (subset, res) ∧
      st2 = processMatches o ⟨st.txns, res.returns, st.records, st.giftCards⟩
        res.shipments res.txMatches ∧
      o2 = { o with shipments := subset.foldl (fun l s => l.erase s) o.shipments } := by
  simp only [applyMatch] at h
  cases hf : findMatchSubset m o st with
  | none => rw [hf] at h; cases h
  | some pair =>
    obtain ⟨subset, res⟩ := pair
    rw [hf] at h
    simp only [Option.some.injEq, Prod.mk.injEq] at h
    exact ⟨subset, res, rfl, h.2.symm, h.1.symm⟩

theorem foldl_consume_returns (o : Order) (ms : List Transaction)
    (acc : JoinState × List JoinedRecordItem) :
    ((ms.foldl (fun a m => consumeMatch o a.1 a.2 m) acc).1).returns = acc.1.returns := by
  induction ms generalizing acc with
  | nil => rfl
  | cons m ms ih => rw [List.foldl_cons, ih]; rfl

theorem processMatches_returns (o : Order) (st : JoinState) (us : List Shipment)
    (ms : List Transaction) : (processMatches o st us ms).returns = st.returns :=
  foldl_consume_returns o ms (st, flattenItems us)

/-- A strategy whose returned pool of pending returns is a sublist of the
one it was given. -/
def ReturnsShrinking (m : Matcher) : Prop :=
  ∀ sh amt o rts ts, ((m sh amt o rts ts).returns).Sublist rts

theorem giftCardSuccess_returns_sublist (sh : List Shipment) (amt : ℚ)
    (rts : List Return) (t : Transaction) :
    ((giftCardSuccess sh amt rts t).returns).Sublist rts := by
  simp only [giftCardSuccess]
  cases rts.find? (fun r => amountsMatch r.amount (-(amt - t.amount))) with
  | none => exact List.Sublist.refl rts
  | some mr => exact List.erase_sublist mr rts

theorem shrinking_wrap (f : List Shipment → ℚ → Order → List Return → List Transaction →
    List Transaction) : ReturnsShrinking (wrapMatcher f) :=
  fun _ _ _ rts _ => List.Sublist.refl rts

theorem shrinking_gift : ReturnsShrinking getGiftCardMatches := by
  intro sh amt o rts ts
  cases hg : o.usedGiftCard with
  | false =>
    simp only [getGiftCardMatches, hg, Bool.not_false, if_true]
    exact List.Sublist.refl rts
  | true =>
    simp only [getGiftCardMatches, hg, Bool.not_true, Bool.false_eq_true, if_false]
    cases List.insertionSort (fun a b => absQ (a.amount - amt) ≤ absQ (b.amount - amt))
        (((ts.filter (fun t => decide (t.amount < 0))).filter
            (fun t => inRange t.date o.orderDate)).filter
          (fun t => decide (amt < t.amount))) with
    | nil => exact List.Sublist.refl rts
    | cons t0 tl => exact giftCardSuccess_returns_sublist sh amt rts t0

theorem applyMatch_returns_sublist {m : Matcher} (hm : ReturnsShrinking m) {o : Order}
    {st : JoinState} {o2 : Order} {st2 : JoinState}
    (h : applyMatch m o st = some (o2, st2)) : st2.returns.Sublist st.returns := by
  obtain ⟨subset, res, hf, hst, _⟩ := applyMatch_some h
  obtain ⟨_, _, hres, _⟩ := findMatchSubset_eq_some hf
  rw [hst, processMatches_returns]
  show res.returns.Sublist st.returns
  rw [hres]
  exact hm _ _ _ _ _

theorem processOrderLoop_returns_sublist {m : Matcher} (hm : ReturnsShrinking m)
    (fuel : Nat) (o : Order) (st : JoinState) :
    ((processOrderLoop m fuel o st).2).returns.Sublist st.returns := by
  induction fuel generalizing o st with
  | zero => exact List.Sublist.refl _
  | succ fuel ih =>
    simp only [processOrderLoop]
    cases ha : applyMatch m o st with
    | none => exact List.Sublist.refl _
    | some pair =>
      obtain ⟨o2, st2⟩ := pair
      exact (ih o2 st2).trans (applyMatch_returns_sublist hm ha)

theorem scanOrders_returns_sublist {m : Matcher} (hm : ReturnsShrinking m)
    (os : List Order) (st : JoinState) :
    ((scanOrders m os st).2).returns.Sublist st.returns := by
  induction os generalizing st with
  | nil => exact List.Sublist.refl _
  | cons o rest ih =>
    simp only [scanOrders]
    exact (ih _).trans (processOrderLoop_returns_sublist hm _ o st)

theorem runMatchers_returns_sublist {ms : List Matcher}
    (hms : ∀ m ∈ ms, ReturnsShrinking m) (os : List Order) (st : JoinState) :
    ((runMatchers ms os st).2).returns.Sublist st.returns := by
  induction ms generalizing os st with
  | nil => exact List.Sublist.refl _
  | cons m rest ih =>
    simp only [runMatchers]
    exact (ih (fun x hx => hms x (List.mem_cons_of_mem m hx)) _ _).trans
      (scanOrders_returns_sublist (hms m (List.mem_cons_self m rest)) os st)

theorem matchers_shrinking : ∀ m ∈ matchers, ReturnsShrinking m := by
  intro m hm
  simp only [matchers, List.mem_cons, List.mem_singleton] at hm
  rcases hm with rfl | rfl | h
  · exact shrinking_wrap getExactMatches
  · exact shrinking_wrap getCombinationMatches
  · rcases h with rfl | h2
    · exact shrinking_gift
    · cases h2

/-- A strategy that hands the pending returns back unchanged whenever the
order has no gift-card flag. -/
def ReturnsFixed (m : Matcher) : Prop :=
  ∀ sh amt o rts ts, o.usedGiftCard = false → (m sh amt o rts ts).returns = rts

theorem fixed_wrap (f : List Shipment → ℚ → Order → List Return → List Transaction →
    List Transaction) : ReturnsFixed (wrapMatcher f) :=
  fun _ _ _ _ _ _ => rfl

theorem fixed_gift : ReturnsFixed getGiftCardMatches := by
  intro sh amt o rts ts hflag
  simp [getGiftCardMatches, hflag]

theorem applyMatch_returns_fixed {m : Matcher} (hm : ReturnsFixed m) {o : Order}
    {st : JoinState} {o2 : Order} {st2 : JoinState} (hflag : o.usedGiftCard = false)
    (h : applyMatch m o st = some (o2, st2)) :
    st2.returns = st.returns ∧ o2.usedGiftCard = false := by
  obtain ⟨subset, res, hf, hst, ho2⟩ := applyMatch_some h
  obtain ⟨_, _, hres, _⟩ := findMatchSubset_eq_some hf
  constructor
  · rw [hst, processMatches_returns]
    show res.returns = st.returns
    rw [hres]
    exact hm _ _ _ _ _ hflag
  · rw [ho2]
    exact hflag

theorem processOrderLoop_returns_fixed {m : Matcher} (hm : ReturnsFixed m)
    (fuel : Nat) (o : Order) (st : JoinState) (hflag : o.usedGiftCard = false) :
    ((processOrderLoop m fuel o st).2).returns = st.returns ∧
      ((processOrderLoop m fuel o st).1).usedGiftCard = false := by
  induction fuel generalizing o st with
  | zero => exact ⟨rfl, hflag⟩
  | succ fuel ih =>
    simp only [processOrderLoop]
    cases ha : applyMatch m o st with
    | none => exact ⟨rfl, hflag⟩
    | some pair =>
      obtain ⟨o2, st2⟩ := pair
      obtain ⟨hr, hf2⟩ := applyMatch_returns_fixed hm hflag ha
      obtain ⟨ihr, ihf⟩ := ih o2 st2 hf2
      exact ⟨ihr.trans hr, ihf⟩

theorem scanOrders_returns_fixed {m : Matcher} (hm : ReturnsFixed m)
    (os : List Order) (st : JoinState) (hflag : ∀ o ∈ os, o.usedGiftCard = false) :
    ((scanOrders m os st).2).returns = st.returns ∧
      ∀ o ∈ (scanOrders m os st).1, o.usedGiftCard = false := by
  induction os generalizing st with
  | nil => exact ⟨rfl, by intro o ho; cases ho⟩
  | cons o rest ih =>
    have hflago := hflag o (List.mem_cons_self o rest)
    obtain ⟨hr1, hf1⟩ := processOrderLoop_returns_fixed hm (o.shipments.length + 1) o st hflago
    obtain ⟨hr2, hf2⟩ := ih ((processOrderLoop m (o.shipments.length + 1) o st).2)
      (fun x hx => hflag x (List.mem_cons_of_mem o hx))
    constructor
    · show ((scanOrders m rest _).2).returns = st.returns
      rw [hr2, hr1]
    · intro x hx
      simp only [scanOrders] at hx
      by_cases hc : ((processOrderLoop m (o.shipments.length + 1) o st).1).shipments.isEmpty
          && !o.shipments.isEmpty
      · rw [if_pos hc] at hx
        exact hf2 x hx
      · rw [if_neg hc] at hx
        rcases List.mem_cons.mp hx with rfl | hx2
        · exact hf1
        · exact hf2 x hx2

theorem runMatchers_returns_fixed {ms : List Matcher}
    (hms : ∀ m ∈ ms, ReturnsFixed m) (os : List Order) (st : JoinState)
    (hflag : ∀ o ∈ os, o.usedGiftCard = false) :
    ((runMatchers ms os st).2).returns = st.returns := by
  induction ms generalizing os st with
  | nil => rfl
  | cons m rest ih =>
    simp only [runMatchers]
    obtain ⟨hr, hf⟩ := scanOrders_returns_fixed (hms m (List.mem_cons_self m rest)) os st hflag
    rw [ih (fun x hx => hms x (List.mem_cons_of_mem m hx)) _ _ hf, hr]

theorem matchers_fixed : ∀ m ∈ matchers, ReturnsFixed m := by
  intro m hm
  simp only [matchers, List.mem_cons, List.mem_singleton] at hm
  rcases hm with rfl | rfl | h
  · exact fixed_wrap getExactMatches
  · exact fixed_wrap getCombinationMatches
  · rcases h with rfl | h2
    · exact fixed_gift
    · cases h2

/-- Amended C5: the transactions and the orders of the caller are isolated
by the deep copies taken on entry, but the returns array of the caller is
copied only after the first phase, which removes from it any pending return
a gift-card match absorbs. So the caller returns collection after the run is
always a sublist of the input, and is equal to the input whenever no order
carries the gift-card flag. -/
theorem C5_caller_isolation (mintTransactions : List Transaction)
    (amazonOrders : List Order) (amazonReturns : List Return) :
    ((joinOrders mintTransactions amazonOrders amazonReturns).callerAmazonReturns).Sublist
        amazonReturns ∧
      ((∀ o ∈ amazonOrders, o.usedGiftCard = false) →
        (joinOrders mintTransactions amazonOrders amazonReturns).callerAmazonReturns =
          amazonReturns) := by
  constructor
  · simp only [joinOrders]
    exact runMatchers_returns_sublist matchers_shrinking _ _
  · intro hflag
    simp only [joinOrders]
    apply runMatchers_returns_fixed matchers_fixed
    intro o ho
    exact hflag o ((List.perm_insertionSort _ amazonOrders).subset ho)

/-- The pending return of the C5 counterexample, absorbed by the gift-card
match. -/
def c5Return : Return := ⟨"o1", 86400000, 15, [⟨"x", -15⟩]⟩

/-- Counterexample to C5 as stated: a run on a gift-card order with a
pending return matching the uncovered delta removes that return from the
returns collection of the caller. -/
theorem C5_counterexample :
    (joinOrders [gcTxnC] [gcOrderC] [c5Return]).callerAmazonReturns ≠ [c5Return] := by decide

/-- Witness for the amended C5 on a run without gift-card orders. -/
theorem C5_caller_isolation_witness :
    ((joinOrders [] [] [c5Return]).callerAmazonReturns).Sublist [c5Return] ∧
      (joinOrders [] [] [c5Return]).callerAmazonReturns = [c5Return] :=
  ⟨(C5_caller_isolation [] [] [c5Return]).1,
   (C5_caller_isolation [] [] [c5Return]).2 (by simp)⟩

/-
Whole-cent amounts: arithmetic toolkit for claim C1.
-/

theorem absQ_eq_abs (q : ℚ) : absQ q = |q| := by
  unfold absQ
  by_cases h : q < 0
  · rw [if_pos h, abs_of_neg h]
  · rw [if_neg h, abs_of_nonneg (le_of_not_lt h)]

/-- An amount that is a whole number of cents. -/
def isCents (q : ℚ) : Prop := (q * 100).den = 1

instance isCents_decidable : DecidablePred isCents :=
  fun q => inferInstanceAs (Decidable ((q * 100).den = 1))

theorem isCents_iff {q : ℚ} : isCents q ↔ ∃ k : ℤ, q * 100 = (k : ℚ) := by
  unfold isCents
  rw [Rat.den_eq_one_iff]
  constructor
  · intro h
    exact ⟨(q * 100).num, h.symm⟩
  · rintro ⟨k, hk⟩
    rw [hk]
    simp

theorem isCents_add {a b : ℚ} (ha : isCents a) (hb : isCents b) : isCents (a + b) := by
  obtain ⟨ka, hka⟩ := isCents_iff.mp ha
  obtain ⟨kb, hkb⟩ := isCents_iff.mp hb
  refine isCents_iff.mpr ⟨ka + kb, ?_⟩
  rw [add_mul, hka, hkb]
  push_cast
  ring

theorem isCents_neg {a : ℚ} (ha : isCents a) : isCents (-a) := by
  obtain ⟨ka, hka⟩ := isCents_iff.mp ha
  refine isCents_iff.mpr ⟨-ka, ?_⟩
  rw [neg_mul, hka]
  push_cast
  ring

theorem isCents_sub {a b : ℚ} (ha : isCents a) (hb : isCents b) : isCents (a - b) := by
  rw [sub_eq_add_neg]
  exact isCents_add ha (isCents_neg hb)

theorem isCents_zero : isCents 0 := by decide

theorem isCents_eq_of_amountsMatch {a b : ℚ} (ha : isCents a) (hb : isCents b)
    (h : amountsMatch a b = true) : a = b := by
  obtain ⟨ka, hka⟩ := isCents_iff.mp ha
  obtain ⟨kb, hkb⟩ := isCents_iff.mp hb
  have habs : |a - b| < mkRat 1 100 := by
    have := of_decide_eq_true h
    rwa [absQ_eq_abs] at this
  have hmk : (mkRat 1 100 : ℚ) = 1 / 100 := by
    rw [Rat.mkRat_eq_div]
    norm_num
  rw [hmk] at habs
  have hcast : ((ka - kb : ℤ) : ℚ) = (a - b) * 100 := by
    push_cast
    rw [sub_mul, hka, hkb]
  have hlt : |((ka - kb : ℤ) : ℚ)| < 1 := by
    rw [hcast, abs_mul]
    have h100 : |(100 : ℚ)| = 100 := by norm_num
    rw [h100]
    calc |a - b| * 100 < (1 / 100) * 100 := by
          apply mul_lt_mul_of_pos_right habs
          norm_num
    _ = 1 := by norm_num
  have hz : ka - kb = 0 := by
    apply Int.abs_lt_one_iff.mp
    have h2 : ((|ka - kb| : ℤ) : ℚ) < 1 := by
      rw [Int.cast_abs]
      exact hlt
    exact_mod_cast h2
  have : ka = kb := by omega
  apply mul_right_cancel₀ (by norm_num : (100 : ℚ) ≠ 0)
  rw [hka, hkb, this]

theorem floorQ_eq (q : ℚ) : floorQ q = ⌊q⌋ := (Rat.floor_def).symm

theorem roundCents_eq_self {q : ℚ} (h : isCents q) : roundCents q = q := by
  obtain ⟨k, hk⟩ := isCents_iff.mp h
  unfold roundCents
  rw [hk, floorQ_eq]
  have hmk : (mkRat 1 2 : ℚ) = 1 / 2 := by
    rw [Rat.mkRat_eq_div]
    norm_num
  rw [hmk]
  have hfl : ⌊(k : ℚ) + 1 / 2⌋ = k := by
    rw [Int.floor_int_add]
    norm_num
  rw [hfl, Rat.divInt_eq_div]
  push_cast
  rw [div_eq_iff (by norm_num : (100 : ℚ) ≠ 0)]
  exact hk.symm

theorem isCents_roundCents (q : ℚ) : isCents (roundCents q) := by
  unfold roundCents
  refine isCents_iff.mpr ⟨floorQ (q * 100 + mkRat 1 2), ?_⟩
  rw [Rat.divInt_eq_div]
  field_simp

theorem foldl_add_eq_sum (l : List ℚ) (init : ℚ) :
    l.foldl (fun a b => a + b) init = init + l.sum := by
  induction l generalizing init with
  | nil => simp
  | cons x l ih =>
    rw [List.foldl_cons, ih, List.sum_cons]
    ring

theorem isCents_sum {l : List ℚ} (h : ∀ a ∈ l, isCents a) : isCents l.sum := by
  induction l with
  | nil => exact isCents_zero
  | cons x l ih =>
    rw [List.sum_cons]
    exact isCents_add (h x (List.mem_cons_self x l))
      (ih (fun a ha => h a (List.mem_cons_of_mem x ha)))

theorem getTotalAmount_cents {l : List ℚ} (h : ∀ a ∈ l, isCents a) :
    getTotalAmount l = l.sum := by
  unfold getTotalAmount
  rw [foldl_add_eq_sum, zero_add, roundCents_eq_self (isCents_sum h)]

/-
Amount conservation: claim C1, part 1 (allocator and strategy lemmas).
-/

theorem greedyTake_spec (l : List JoinedRecordItem) (r : ℚ) :
    ((greedyTake l r).1.map (fun it => it.amount)).sum = r - (greedyTake l r).2.2 ∧
      (∀ it ∈ (greedyTake l r).1, it ∈ l) ∧ (∀ it ∈ (greedyTake l r).2.1, it ∈ l) := by
  induction l generalizing r with
  | nil => simp [greedyTake]
  | cons x xs ih =>
    by_cases h : r < 0
    · simp only [greedyTake, if_pos h]
      obtain ⟨ih1, ih2, ih3⟩ := ih (r - x.amount)
      refine ⟨?_, ?_, ?_⟩
      · simp only [List.map_cons, List.sum_cons, ih1]
        ring
      · intro it hit
        rcases List.mem_cons.mp hit with rfl | h2
        · exact List.mem_cons_self it xs
        · exact List.mem_cons_of_mem x (ih2 it h2)
      · intro it hit
        exact List.mem_cons_of_mem x (ih3 it hit)
    · simp only [greedyTake, if_neg h]
      refine ⟨by simp, ?_, fun it hit => hit⟩
      intro it hit
      cases hit

theorem allocate_spec (items : List JoinedRecordItem) (target : ℚ)
    (hitems : ∀ it ∈ items, isCents it.amount) (htarget : isCents target) :
    ((allocate items target).1.map (fun it => it.amount)).sum = target ∧
      (∀ it ∈ (allocate items target).1, isCents it.amount) ∧
      (∀ it ∈ (allocate items target).2, isCents it.amount) := by
  unfold allocate
  by_cases hne : matchingCombos items target = []
  · have hae : allocateExact items target = ([], items) := by
      rw [allocateExact_eq2, hne]
      rfl
    rw [hae]
    simp only [List.isEmpty_nil, if_true]
    obtain ⟨g1, g2, g3⟩ := greedyTake_spec items target
    have hcents_taken : ∀ it ∈ (greedyTake items target).1, isCents it.amount :=
      fun it h => hitems it (g2 it h)
    have hmapc : ∀ a ∈ ((greedyTake items target).1.map (fun it => it.amount)), isCents a := by
      intro a ha
      obtain ⟨it, hit, rfl⟩ := List.mem_map.mp ha
      exact hcents_taken it hit
    have hr : isCents (greedyTake items target).2.2 := by
      have he : (greedyTake items target).2.2 =
          target - ((greedyTake items target).1.map (fun it => it.amount)).sum := by
        rw [g1]
        ring
      rw [he]
      exact isCents_sub htarget (isCents_sum hmapc)
    by_cases hm : amountsMatch (greedyTake items target).2.2 0
    · rw [if_pos hm]
      have hr0 : (greedyTake items target).2.2 = 0 :=
        isCents_eq_of_amountsMatch hr isCents_zero hm
      refine ⟨by rw [g1, hr0]; ring, hcents_taken, fun it h => hitems it (g3 it h)⟩
    · rw [if_neg hm]
      refine ⟨?_, ?_, fun it h => hitems it (g3 it h)⟩
      · simp only [List.map_append, List.sum_append, balanceAdjustItem, List.map_cons,
          List.sum_cons, List.map_nil, List.sum_nil, g1]
        ring
      · intro it hit
        rcases List.mem_append.mp hit with h2 | h2
        · exact hcents_taken it h2
        · have : it = balanceAdjustItem (greedyTake items target).2.2 := by simpa using h2
          rw [this]
          exact hr
  · have hlast : (allocateExact items target).1 = (matchingCombos items target).getLast hne := by
      rw [allocateExact_eq2]
      exact foldl_pick_last _ [] hne
    have hmem : (allocateExact items target).1 ∈ matchingCombos items target := by
      rw [hlast]
      exact List.getLast_mem hne
    have hmc : (allocateExact items target).1 ∈ (combinations items).filter
        (fun c => amountsMatch (getTotalAmount (c.map (fun it => it.amount))) target) := hmem
    obtain ⟨hcomb, hpred⟩ := List.mem_filter.mp hmc
    have hsub := sublist_of_mem_combinations hcomb
    have hne1 : (allocateExact items target).1 ≠ [] := ne_nil_of_mem_combinations hcomb
    have hc1 : ∀ it ∈ (allocateExact items target).1, isCents it.amount :=
      fun it h => hitems it (hsub.subset h)
    have hmapc : ∀ a ∈ ((allocateExact items target).1.map (fun it => it.amount)), isCents a := by
      intro a ha
      obtain ⟨it, hit, rfl⟩ := List.mem_map.mp ha
      exact hc1 it hit
    have hempty : ¬ ((allocateExact items target).1.isEmpty = true) := by
      intro hc
      exact hne1 (List.isEmpty_iff.mp hc)
    rw [if_neg hempty]
    have h2sub : (allocateExact items target).2.Sublist items := by
      rw [allocateExact_eq2]
      exact eraseAllFold_sublist _ _
    refine ⟨?_, hc1, fun it h => hitems it (h2sub.subset h)⟩
    rw [getTotalAmount_cents hmapc] at hpred
    exact isCents_eq_of_amountsMatch (isCents_sum hmapc) htarget hpred

/-- A strategy whose matched transactions all come from the transaction
pool it was given. -/
def MatchesFromPool (m : Matcher) : Prop :=
  ∀ sh amt o rts ts, ∀ t ∈ (m sh amt o rts ts).txMatches, t ∈ ts

theorem getExactMatches_mem (sh : List Shipment) (amt : ℚ) (o : Order)
    (rts : List Return) (ts : List Transaction) :
    ∀ t ∈ getExactMatches sh amt o rts ts, t ∈ ts := by
  intro t ht
  unfold getExactMatches at ht
  cases hs : List.insertionSort
      (fun a b => getTimeDelta a.date o.orderDate ≤ getTimeDelta b.date o.orderDate)
      (((ts.filter (fun t => decide (t.amount < 0))).filter
          (fun t => inRange t.date o.orderDate)).filter
        (fun t => amountsMatch t.amount amt)) with
  | nil =>
    rw [hs] at ht
    cases ht
  | cons t0 tl =>
    rw [hs] at ht
    have : t = t0 := by simpa using ht
    subst this
    have hmem : t ∈ (((ts.filter (fun t => decide (t.amount < 0))).filter
        (fun t => inRange t.date o.orderDate)).filter
      (fun t => amountsMatch t.amount amt)) :=
      (List.perm_insertionSort _ _).subset (hs ▸ List.mem_cons_self t tl)
    exact (List.mem_filter.mp (List.mem_filter.mp (List.mem_filter.mp hmem).1).1).1

theorem getCombinationMatches_mem (sh : List Shipment) (amt : ℚ) (o : Order)
    (rts : List Return) (ts : List Transaction) :
    ∀ t ∈ getCombinationMatches sh amt o rts ts, t ∈ ts := by
  intro t ht
  simp only [getCombinationMatches] at ht
  cases hf : (((combinations (List.insertionSort
      (fun a b => getTimeDelta a.date o.orderDate ≤ getTimeDelta b.date o.orderDate)
      ((ts.filter (fun t => decide (t.amount < 0))).filter
        (fun t => inRange t.date o.orderDate)))).filter
      (fun c => decide (2 ≤ c.length))).find?
      (fun c => amountsMatch (getTotalAmount (c.map (fun t => t.amount))) amt)) with
  | none =>
    rw [hf] at ht
    cases ht
  | some c =>
    rw [hf] at ht
    have hcm := List.mem_of_find?_eq_some hf
    obtain ⟨hcomb, _⟩ := List.mem_filter.mp hcm
    have hsub := sublist_of_mem_combinations hcomb
    have hmem := (List.perm_insertionSort _ _).subset (hsub.subset ht)
    exact (List.mem_filter.mp (List.mem_filter.mp hmem).1).1

theorem getGiftCardMatches_mem (sh : List Shipment) (amt : ℚ) (o : Order)
    (rts : List Return) (ts : List Transaction) :
    ∀ t ∈ (getGiftCardMatches sh amt o rts ts).txMatches, t ∈ ts := by
  intro t ht
  rw [getGiftCardMatches_txMatches] at ht
  by_cases hg : o.usedGiftCard
  · rw [if_pos hg] at ht
    cases hs : List.insertionSort (fun a b => absQ (a.amount - amt) ≤ absQ (b.amount - amt))
        (((ts.filter (fun t => decide (t.amount < 0))).filter
            (fun t => inRange t.date o.orderDate)).filter
          (fun t => decide (amt < t.amount))) with
    | nil =>
      rw [hs] at ht
      cases ht
    | cons t0 tl =>
      rw [hs] at ht
      have : t = t0 := by simpa using ht
      subst this
      have hmem := (List.perm_insertionSort _ _).subset (hs ▸ List.mem_cons_self t tl)
      exact (List.mem_filter.mp (List.mem_filter.mp (List.mem_filter.mp hmem).1).1).1
  · rw [if_neg hg] at ht
    cases ht

theorem matchers_pool : ∀ m ∈ matchers, MatchesFromPool m := by
  intro m hm
  simp only [matchers, List.mem_cons, List.mem_singleton] at hm
  rcases hm with rfl | rfl | h
  · exact fun sh amt o rts ts => getExactMatches_mem sh amt o rts ts
  · exact fun sh amt o rts ts => getCombinationMatches_mem sh amt o rts ts
  · rcases h with rfl | h2
    · exact fun sh amt o rts ts => getGiftCardMatches_mem sh amt o rts ts
    · cases h2

/-- Shorthand for the return-pool invariant of claim C1. -/
def RetOK (r : Return) : Prop :=
  isCents r.amount ∧ (∀ i ∈ r.items, isCents i.amount) ∧
    (r.items.map (fun i => i.amount)).sum = -r.amount

/-- A strategy that keeps every item amount of the shipment group a whole
number of cents, given cent amounts in the group and well-formed returns. -/
def ShipKept (m : Matcher) : Prop :=
  ∀ sh amt o rts ts, (∀ s ∈ sh, ∀ i ∈ s.items, isCents i.amount) →
    (∀ r ∈ rts, RetOK r) →
    ∀ s ∈ (m sh amt o rts ts).shipments, ∀ i ∈ s.items, isCents i.amount

theorem pushItemsToHead_cents (sh : List Shipment) (newItems : List Item)
    (h : ∀ s ∈ sh, ∀ i ∈ s.items, isCents i.amount)
    (hnew : ∀ i ∈ newItems, isCents i.amount) :
    ∀ s ∈ pushItemsToHead sh newItems, ∀ i ∈ s.items, isCents i.amount := by
  cases sh with
  | nil => intro s hs; cases hs
  | cons s0 rest =>
    intro s hs i hi
    rcases List.mem_cons.mp hs with rfl | h2
    · simp only at hi
      rcases List.mem_append.mp hi with h3 | h3
      · exact h s0 (List.mem_cons_self s0 rest) i h3
      · exact hnew i h3
    · exact h s (List.mem_cons_of_mem s0 h2) i hi

theorem shipKept_wrap (f : List Shipment → ℚ → Order → List Return → List Transaction →
    List Transaction) : ShipKept (wrapMatcher f) :=
  fun _ _ _ _ _ h _ => h

theorem shipKept_gift : ShipKept getGiftCardMatches := by
  intro sh amt o rts ts hsh hrts
  cases hg : o.usedGiftCard with
  | false =>
    simp only [getGiftCardMatches, hg, Bool.not_false, if_true]
    exact hsh
  | true =>
    simp only [getGiftCardMatches, hg, Bool.not_true, Bool.false_eq_true, if_false]
    cases List.insertionSort (fun a b => absQ (a.amount - amt) ≤ absQ (b.amount - amt))
        (((ts.filter (fun t => decide (t.amount < 0))).filter
            (fun t => inRange t.date o.orderDate)).filter
          (fun t => decide (amt < t.amount))) with
    | nil => exact hsh
    | cons t0 tl =>
      simp only [giftCardSuccess]
      cases hfind : rts.find? (fun r => amountsMatch r.amount (-(amt - t0.amount))) with
      | none =>
        apply pushItemsToHead_cents sh _ hsh
        intro i hi
        have : i = (⟨giftCardDescription, roundCents (-(amt - t0.amount))⟩ : Item) := by
          simpa using hi
        rw [this]
        exact isCents_roundCents _
      | some mr =>
        apply pushItemsToHead_cents sh _ hsh
        intro i hi
        obtain ⟨i0, hi0, rfl⟩ := List.mem_map.mp hi
        have hmr := List.mem_of_find?_eq_some hfind
        exact isCents_neg ((hrts mr hmr).2.1 i0 hi0)

theorem matchers_ship : ∀ m ∈ matchers, ShipKept m := by
  intro m hm
  simp only [matchers, List.mem_cons, List.mem_singleton] at hm
  rcases hm with rfl | rfl | h
  · exact shipKept_wrap getExactMatches
  · exact shipKept_wrap getCombinationMatches
  · rcases h with rfl | h2
    · exact shipKept_gift
    · cases h2

/-
Amount conservation: claim C1, part 2 (state invariant and the claim).
-/

/-- The invariant of the working pools: cent amounts everywhere, well-formed
returns, and every record so far conserving its amount. -/
def StateOK (st : JoinState) : Prop :=
  (∀ t ∈ st.txns, isCents t.amount) ∧
    (∀ r ∈ st.returns, RetOK r) ∧
    (∀ jr ∈ st.records, (jr.items.map (fun it => it.amount)).sum = jr.amount) ∧
    (∀ g ∈ st.giftCards, isCents g.amount)

theorem flattenItems_cents (sh : List Shipment)
    (h : ∀ s ∈ sh, ∀ i ∈ s.items, isCents i.amount) :
    ∀ it ∈ flattenItems sh, isCents it.amount := by
  intro it hit
  simp only [flattenItems, List.mem_flatten, List.mem_map] at hit
  obtain ⟨l, ⟨s, hs, rfl⟩, hitl⟩ := hit
  obtain ⟨i, hi, rfl⟩ := List.mem_map.mp hitl
  exact h s hs i hi

theorem consumeMatch_ok (o : Order) (st : JoinState) (items : List JoinedRecordItem)
    (m : Transaction) (hst : StateOK st) (hitems : ∀ it ∈ items, isCents it.amount)
    (hm : isCents m.amount) :
    StateOK (consumeMatch o st items m).1 ∧
      ∀ it ∈ (consumeMatch o st items m).2, isCents it.amount := by
  obtain ⟨hsum, hc1, hc2⟩ := allocate_spec items m.amount hitems hm
  obtain ⟨ht, hr, hrec, hg⟩ := hst
  refine ⟨⟨?_, ?_, ?_, ?_⟩, ?_⟩
  · intro t h2
    exact ht t ((List.erase_sublist m st.txns).subset h2)
  · exact hr
  · intro jr h2
    simp only [consumeMatch] at h2
    rcases List.mem_append.mp h2 with h3 | h3
    · exact hrec jr h3
    · rw [List.mem_singleton.mp h3]
      exact hsum
  · intro g h2
    simp only [consumeMatch] at h2
    rcases List.mem_append.mp h2 with h3 | h3
    · exact hg g h3
    · obtain ⟨it, hit, rfl⟩ := List.mem_map.mp h3
      exact hc1 it (List.mem_of_mem_filter hit)
  · exact hc2

theorem foldl_consume_ok (o : Order) (ms : List Transaction)
    (acc : JoinState × List JoinedRecordItem) (hst : StateOK acc.1)
    (hpool : ∀ it ∈ acc.2, isCents it.amount) (hms : ∀ m ∈ ms, isCents m.amount) :
    StateOK ((ms.foldl (fun a m => consumeMatch o a.1 a.2 m) acc).1) := by
  induction ms generalizing acc with
  | nil => exact hst
  | cons m ms ih =>
    rw [List.foldl_cons]
    obtain ⟨h1, h2⟩ := consumeMatch_ok o acc.1 acc.2 m hst hpool (hms m (List.mem_cons_self m ms))
    exact ih (consumeMatch o acc.1 acc.2 m) h1 h2 (fun x hx => hms x (List.mem_cons_of_mem m hx))

theorem applyMatch_ok {m : Matcher} (hmem : MatchesFromPool m) (hship : ShipKept m)
    (hshrink : ReturnsShrinking m) {o : Order} {st : JoinState} {o2 : Order} {st2 : JoinState}
    (hst : StateOK st) (ho : ∀ s ∈ o.shipments, ∀ i ∈ s.items, isCents i.amount)
    (h : applyMatch m o st = some (o2, st2)) :
    StateOK st2 ∧ (∀ s ∈ o2.shipments, ∀ i ∈ s.items, isCents i.amount) := by
  obtain ⟨subset, res, hf, hst2, ho2⟩ := applyMatch_some h
  obtain ⟨hsub, _, hres, _⟩ := findMatchSubset_eq_some hf
  obtain ⟨htx, hrt, hrc, hgc⟩ := hst
  have hsubsh : ∀ s ∈ subset, ∀ i ∈ s.items, isCents i.amount :=
    fun s hs => ho s (hsub.subset hs)
  have hretres : ∀ r ∈ res.returns, RetOK r := by
    intro r hr2
    apply hrt
    have hsl : res.returns.Sublist st.returns := by
      rw [hres]
      exact hshrink _ _ _ _ _
    exact hsl.subset hr2
  have hshipres : ∀ s ∈ res.shipments, ∀ i ∈ s.items, isCents i.amount := by
    rw [hres]
    exact hship subset _ o st.returns st.txns hsubsh hrt
  have hmsres : ∀ t ∈ res.txMatches, isCents t.amount := by
    intro t ht2
    apply htx
    rw [hres] at ht2
    exact hmem _ _ _ _ _ t ht2
  constructor
  · rw [hst2]
    apply foldl_consume_ok
    · exact ⟨htx, hretres, hrc, hgc⟩
    · exact flattenItems_cents res.shipments hshipres
    · exact hmsres
  · rw [ho2]
    intro s hs
    exact ho s ((eraseAll_sublist subset o.shipments).subset hs)

theorem processOrderLoop_ok {m : Matcher} (hmem : MatchesFromPool m) (hship : ShipKept m)
    (hshrink : ReturnsShrinking m) :
    ∀ fuel o st, StateOK st → (∀ s ∈ Order.shipments o, ∀ i ∈ s.items, isCents i.amount) →
      StateOK ((processOrderLoop m fuel o st).2) ∧
        ∀ s ∈ ((processOrderLoop m fuel o st).1).shipments, ∀ i ∈ s.items, isCents i.amount := by
  intro fuel
  induction fuel with
  | zero => intro o st h1 h2; exact ⟨h1, h2⟩
  | succ fuel ih =>
    intro o st h1 h2
    simp only [processOrderLoop]
    cases ha : applyMatch m o st with
    | none => exact ⟨h1, h2⟩
    | some pair =>
      obtain ⟨o2, st2⟩ := pair
      obtain ⟨k1, k2⟩ := applyMatch_ok hmem hship hshrink h1 h2 ha
      exact ih o2 st2 k1 k2

theorem scanOrders_ok {m : Matcher} (hmem : MatchesFromPool m) (hship : ShipKept m)
    (hshrink : ReturnsShrinking m) :
    ∀ os st, StateOK st →
      (∀ o ∈ os, ∀ s ∈ Order.shipments o, ∀ i ∈ s.items, isCents i.amount) →
      StateOK ((scanOrders m os st).2) ∧
        ∀ o ∈ (scanOrders m os st).1, ∀ s ∈ Order.shipments o, ∀ i ∈ s.items,
          isCents i.amount := by
  intro os
  induction os with
  | nil => intro st h1 h2; exact ⟨h1, fun o ho => absurd ho (List.not_mem_nil o)⟩
  | cons o rest ih =>
    intro st h1 h2
    obtain ⟨p1, p2⟩ := processOrderLoop_ok hmem hship hshrink (o.shipments.length + 1) o st h1
      (h2 o (List.mem_cons_self o rest))
    obtain ⟨q1, q2⟩ := ih ((processOrderLoop m (o.shipments.length + 1) o st).2) p1
      (fun x hx => h2 x (List.mem_cons_of_mem o hx))
    constructor
    · exact q1
    · intro x hx
      simp only [scanOrders] at hx
      by_cases hc : ((processOrderLoop m (o.shipments.length + 1) o st).1).shipments.isEmpty
          && !o.shipments.isEmpty
      · rw [if_pos hc] at hx
        exact q2 x hx
      · rw [if_neg hc] at hx
        rcases List.mem_cons.mp hx with rfl | hx2
        · exact p2
        · exact q2 x hx2

theorem runMatchers_ok {ms : List Matcher} (hp : ∀ m ∈ ms, MatchesFromPool m)
    (hsp : ∀ m ∈ ms, ShipKept m) (hk : ∀ m ∈ ms, ReturnsShrinking m) :
    ∀ os st, StateOK st →
      (∀ o ∈ os, ∀ s ∈ Order.shipments o, ∀ i ∈ s.items, isCents i.amount) →
      StateOK ((runMatchers ms os st).2) := by
  induction ms with
  | nil => intro os st h1 _; exact h1
  | cons m mrest ih =>
    intro os st h1 h2
    simp only [runMatchers]
    obtain ⟨g1, g2⟩ := scanOrders_ok (hp m (List.mem_cons_self m mrest))
      (hsp m (List.mem_cons_self m mrest)) (hk m (List.mem_cons_self m mrest)) os st h1 h2
    exact ih (fun x hx => hp x (List.mem_cons_of_mem m hx))
      (fun x hx => hsp x (List.mem_cons_of_mem m hx))
      (fun x hx => hk x (List.mem_cons_of_mem m hx)) _ _ g1 g2

theorem sum_map_neg_items (l : List Item) :
    ((l.map (fun i => (⟨"none", descPre ++ i.description, -i.amount⟩ : JoinedRecordItem))).map
      (fun it => it.amount)).sum = -((l.map (fun i => i.amount)).sum) := by
  induction l with
  | nil => simp
  | cons x l ih =>
    simp only [List.map_cons, List.sum_cons, ih]
    ring

theorem mkReturnRecord_conserves (gcs : List GiftCard) (r : Return) (t : Transaction)
    (hg : ∀ g ∈ gcs, isCents g.amount) (hrOK : RetOK r) (htc : isCents t.amount)
    (hcond : returnMatchCond gcs r t = true) :
    ((mkReturnRecord gcs r t).items.map (fun it => it.amount)).sum =
      (mkReturnRecord gcs r t).amount := by
  obtain ⟨hra, hri, hrs⟩ := hrOK
  simp only [mkReturnRecord]
  cases hgc : gcs.find? (fun g => amountsMatch t.amount (r.amount - g.amount)) with
  | some g =>
    have hgcents := hg g (List.mem_of_find?_eq_some hgc)
    have hpred := List.find?_some hgc
    have hteq : t.amount = r.amount - g.amount :=
      isCents_eq_of_amountsMatch htc (isCents_sub hra hgcents) hpred
    simp only [List.map_append, List.sum_append, sum_map_neg_items, List.map_cons,
      List.sum_cons, List.map_nil, List.sum_nil]
    rw [hrs, hteq]
    ring
  | none =>
    have hpred : amountsMatch t.amount r.amount = true := by
      have hc := hcond
      unfold returnMatchCond at hc
      rw [hgc] at hc
      simpa using hc
    have hteq : t.amount = r.amount := isCents_eq_of_amountsMatch htc hra hpred
    simp only [sum_map_neg_items]
    rw [hrs, hteq]
    ring

theorem matchReturns_ok (gcs : List GiftCard) (hg : ∀ g ∈ gcs, isCents g.amount) :
    ∀ rs ts recs, (∀ r ∈ rs, RetOK r) → (∀ t ∈ ts, isCents t.amount) →
      (∀ jr ∈ recs, (jr.items.map (fun it => it.amount)).sum = jr.amount) →
      ∀ jr ∈ (matchReturns gcs rs ts recs).2.2,
        (jr.items.map (fun it => it.amount)).sum = jr.amount := by
  intro rs
  induction rs with
  | nil =>
    intro ts recs _ _ h3 jr hjr
    simp only [matchReturns] at hjr
    exact h3 jr hjr
  | cons r rest ih =>
    intro ts recs h1 h2 h3 jr hjr
    simp only [matchReturns] at hjr
    cases hfind : ts.find? (fun t => returnMatchCond gcs r t) with
    | none =>
      rw [hfind] at hjr
      exact ih ts recs (fun x hx => h1 x (List.mem_cons_of_mem r hx)) h2 h3 jr hjr
    | some t =>
      rw [hfind] at hjr
      have htmem := List.mem_of_find?_eq_some hfind
      have hcond := List.find?_some hfind
      apply ih (ts.erase t) (recs ++ [mkReturnRecord gcs r t])
        (fun x hx => h1 x (List.mem_cons_of_mem r hx))
        (fun x hx => h2 x ((List.erase_sublist t ts).subset hx))
        ?_ jr hjr
      intro x hx
      rcases List.mem_append.mp hx with h4 | h4
      · exact h3 x h4
      · have he : x = mkReturnRecord gcs r t := by simpa using h4
        rw [he]
        exact mkReturnRecord_conserves gcs r t hg (h1 r (List.mem_cons_self r rest))
          (h2 t htmem) hcond

/-- Amended C1: provided every transaction amount and every line-item amount
is a whole number of cents, and every return is well formed (its item
amounts are cents summing to the negation of its amount), every JoinedRecord
of a run conserves its amount within the 0.01 tolerance. Without these input
conditions the claim fails, see the counterexample. -/
theorem C1_amount_conservation (mintTransactions : List Transaction)
    (amazonOrders : List Order) (amazonReturns : List Return)
    (htx : ∀ t ∈ mintTransactions, isCents t.amount)
    (hord : ∀ o ∈ amazonOrders, ∀ s ∈ Order.shipments o, ∀ i ∈ s.items, isCents i.amount)
    (hret : ∀ r ∈ amazonReturns, RetOK r) :
    ∀ jr ∈ (joinOrders mintTransactions amazonOrders amazonReturns).joinedRecords,
      absQ ((jr.items.map (fun it => it.amount)).sum - jr.amount) < mkRat 1 100 := by
  intro jr hjr
  simp only [joinOrders] at hjr
  have hjr2 := (List.perm_insertionSort
    (fun a b : JoinedRecord => a.orderDate ≤ b.orderDate) _).subset hjr
  have hsorted : ∀ o ∈ List.insertionSort
      (fun a b => getTotalAmount (b.shipments.map (fun s => s.amount)) ≤
        getTotalAmount (a.shipments.map (fun s => s.amount))) amazonOrders,
      ∀ s ∈ Order.shipments o, ∀ i ∈ s.items, isCents i.amount :=
    fun o ho => hord o ((List.perm_insertionSort _ amazonOrders).subset ho)
  have hst0 : StateOK ⟨mintTransactions, amazonReturns, [], []⟩ :=
    ⟨htx, hret, fun x hx => absurd hx (List.not_mem_nil x),
      fun x hx => absurd hx (List.not_mem_nil x)⟩
  have hrun := runMatchers_ok matchers_pool matchers_ship matchers_shrinking _ _ hst0 hsorted
  obtain ⟨k1, k2, k3, k4⟩ := hrun
  have hfin := matchReturns_ok _ k4 _ _ _ k2 k1 k3 jr hjr2
  rw [hfin, sub_self]
  decide

/-- The credit transaction of the C1 counterexample. -/
def c1Txn : Transaction := ⟨"t9", 25, 0, []⟩

/-- The ill-formed return of the C1 counterexample: amount 25.00 but items
summing to 10.00. -/
def c1Return : Return := ⟨"o9", 0, 25, [⟨"x", 10⟩]⟩

/-- The record the C1 counterexample run produces. -/
def c1Record : JoinedRecord := ⟨"t9", "o9", 0, 25, [⟨"none", "Amazon - x", -10⟩], false⟩

/-- Counterexample to C1 as stated: the second pass matches the credit of
25.00 to the return by its amount field alone and copies the negated return
items, so the record items sum to -10.00 against amount 25.00. -/
theorem C1_counterexample :
    (joinOrders [c1Txn] [] [c1Return]).joinedRecords = [c1Record] ∧
      ¬ (absQ ((c1Record.items.map (fun it => it.amount)).sum - c1Record.amount) <
        mkRat 1 100) := by decide

/-- The transaction of the C1 witness run (exact-match scenario). -/
def w1Txn : Transaction := ⟨"t", -50, 172800000, []⟩

/-- The order of the C1 witness run. -/
def w1Order : Order := ⟨"o", 0, false, [⟨"T", 0, -50, [⟨"a", -50⟩]⟩]⟩

/-- The record of the C1 witness run. -/
def w1Record : JoinedRecord := ⟨"t", "o", 0, -50, [⟨"T", "Amazon - a", -50⟩], false⟩

/-- Witness for the amended C1 at the exact-match scenario. -/
theorem C1_amount_conservation_witness :
    absQ ((w1Record.items.map (fun it => it.amount)).sum - w1Record.amount) < mkRat 1 100 :=
  C1_amount_conservation [w1Txn] [w1Order] [] (by decide) (by decide)
    (fun r hr => absurd hr (List.not_mem_nil r)) w1Record (by decide)

/-
Partition invariant: claim C8, part 1 (transaction key conservation).
-/

/-- The (id, amount) keys of a transaction pool, as a multiset. -/
def txnKeys (ts : List Transaction) : Multiset (String × ℚ) :=
  Multiset.ofList (ts.map (fun t => (t.id, t.amount)))

/-- The (mintTransactionId, amount) keys of a record list, as a multiset. -/
def recKeys (rs : List JoinedRecord) : Multiset (String × ℚ) :=
  Multiset.ofList (rs.map (fun jr => (jr.mintTransactionId, jr.amount)))

theorem txnKeys_cons_erase {m : Transaction} {ts : List Transaction} (h : m ∈ ts) :
    txnKeys ts = (m.id, m.amount) ::ₘ txnKeys (ts.erase m) := by
  have hp := (List.perm_cons_erase h).map (fun t => (t.id, t.amount))
  exact Quot.sound hp

theorem recKeys_append (r1 r2 : List JoinedRecord) :
    recKeys (r1 ++ r2) = recKeys r1 + recKeys r2 := by
  simp [recKeys]

/-- A strategy whose matched transactions form a sub-multiset of the pool it
was given. -/
def MatchesSubPool (m : Matcher) : Prop :=
  ∀ sh amt o rts ts,
    Multiset.ofList ((m sh amt o rts ts).txMatches) ≤ Multiset.ofList ts

theorem subpool_exact : MatchesSubPool (wrapMatcher getExactMatches) := by
  intro sh amt o rts ts
  show Multiset.ofList (getExactMatches sh amt o rts ts) ≤ Multiset.ofList ts
  unfold getExactMatches
  cases hs : List.insertionSort
      (fun a b => getTimeDelta a.date o.orderDate ≤ getTimeDelta b.date o.orderDate)
      (((ts.filter (fun t => decide (t.amount < 0))).filter
          (fun t => inRange t.date o.orderDate)).filter
        (fun t => amountsMatch t.amount amt)) with
  | nil => exact Multiset.zero_le _
  | cons t0 tl =>
    have ht0 : t0 ∈ ts := by
      have hmem : t0 ∈ (((ts.filter (fun t => decide (t.amount < 0))).filter
          (fun t => inRange t.date o.orderDate)).filter
        (fun t => amountsMatch t.amount amt)) :=
        (List.perm_insertionSort _ _).subset (hs ▸ List.mem_cons_self t0 tl)
      exact (List.mem_filter.mp (List.mem_filter.mp (List.mem_filter.mp hmem).1).1).1
    exact Multiset.singleton_le.mpr ht0

theorem subpool_comb : MatchesSubPool (wrapMatcher getCombinationMatches) := by
  intro sh amt o rts ts
  show Multiset.ofList (getCombinationMatches sh amt o rts ts) ≤ Multiset.ofList ts
  simp only [getCombinationMatches]
  cases hf : (((combinations (List.insertionSort
      (fun a b => getTimeDelta a.date o.orderDate ≤ getTimeDelta b.date o.orderDate)
      ((ts.filter (fun t => decide (t.amount < 0))).filter
        (fun t => inRange t.date o.orderDate)))).filter
      (fun c => decide (2 ≤ c.length))).find?
      (fun c => amountsMatch (getTotalAmount (c.map (fun t => t.amount))) amt)) with
  | none => exact Multiset.zero_le _
  | some c =>
    have hcm := List.mem_of_find?_eq_some hf
    obtain ⟨hcomb, _⟩ := List.mem_filter.mp hcm
    have hsub := sublist_of_mem_combinations hcomb
    calc Multiset.ofList c
        ≤ Multiset.ofList (List.insertionSort
            (fun a b => getTimeDelta a.date o.orderDate ≤ getTimeDelta b.date o.orderDate)
            ((ts.filter (fun t => decide (t.amount < 0))).filter
              (fun t => inRange t.date o.orderDate))) := Multiset.coe_le.mpr hsub.subperm
      _ = Multiset.ofList ((ts.filter (fun t => decide (t.amount < 0))).filter
            (fun t => inRange t.date o.orderDate)) :=
          Multiset.coe_eq_coe.mpr (List.perm_insertionSort _ _)
      _ ≤ Multiset.ofList ts :=
          Multiset.coe_le.mpr (((List.filter_sublist _).trans (List.filter_sublist _)).subperm)

theorem subpool_gift : MatchesSubPool getGiftCardMatches := by
  intro sh amt o rts ts
  rw [getGiftCardMatches_txMatches]
  by_cases hg : o.usedGiftCard
  · rw [if_pos hg]
    cases hs : List.insertionSort (fun a b => absQ (a.amount - amt) ≤ absQ (b.amount - amt))
        (((ts.filter (fun t => decide (t.amount < 0))).filter
            (fun t => inRange t.date o.orderDate)).filter
          (fun t => decide (amt < t.amount))) with
    | nil => exact Multiset.zero_le _
    | cons t0 tl =>
      have ht0 : t0 ∈ ts := by
        have hmem : t0 ∈ (((ts.filter (fun t => decide (t.amount < 0))).filter
            (fun t => inRange t.date o.orderDate)).filter
          (fun t => decide (amt < t.amount))) :=
          (List.perm_insertionSort _ _).subset (hs ▸ List.mem_cons_self t0 tl)
        exact (List.mem_filter.mp (List.mem_filter.mp (List.mem_filter.mp hmem).1).1).1
      exact Multiset.singleton_le.mpr ht0
  · rw [if_neg hg]
    exact Multiset.zero_le _

theorem matchers_subpool : ∀ m ∈ matchers, MatchesSubPool m := by
  intro m hm
  simp only [matchers, List.mem_cons, List.mem_singleton] at hm
  rcases hm with rfl | rfl | h
  · exact subpool_exact
  · exact subpool_comb
  · rcases h with rfl | h2
    · exact subpool_gift
    · cases h2

theorem recKeys_singleton (jr : JoinedRecord) :
    recKeys [jr] = {(jr.mintTransactionId, jr.amount)} := rfl

theorem keys_step (recs : List JoinedRecord) (ts : List Transaction) (jr : JoinedRecord)
    (m : Transaction) (hmem : m ∈ ts) (hid : jr.mintTransactionId = m.id)
    (hamt : jr.amount = m.amount) :
    recKeys (recs ++ [jr]) + txnKeys (ts.erase m) = recKeys recs + txnKeys ts := by
  rw [recKeys_append, txnKeys_cons_erase hmem, recKeys_singleton, hid, hamt, add_assoc,
    Multiset.singleton_add]

theorem consumeMatch_keys (o : Order) (st : JoinState) (items : List JoinedRecordItem)
    (m : Transaction) (hmem : m ∈ st.txns) :
    recKeys ((consumeMatch o st items m).1).records +
        txnKeys ((consumeMatch o st items m).1).txns =
      recKeys st.records + txnKeys st.txns := by
  show recKeys (st.records ++ [_]) + txnKeys (st.txns.erase m) = _
  exact keys_step st.records st.txns _ m hmem rfl rfl

theorem foldl_consume_keys (o : Order) :
    ∀ (ms : List Transaction) (acc : JoinState × List JoinedRecordItem),
      Multiset.ofList ms ≤ Multiset.ofList acc.1.txns →
      recKeys (((ms.foldl (fun a m => consumeMatch o a.1 a.2 m) acc).1).records) +
          txnKeys (((ms.foldl (fun a m => consumeMatch o a.1 a.2 m) acc).1).txns) =
        recKeys acc.1.records + txnKeys acc.1.txns := by
  intro ms
  induction ms with
  | nil => intro acc _; rfl
  | cons m rest ih =>
    intro acc hle
    have hm : m ∈ acc.1.txns := by
      have h2 : m ∈ Multiset.ofList (m :: rest) := by simp
      simpa using Multiset.mem_of_le hle h2
    have htail : Multiset.ofList rest ≤
        Multiset.ofList ((consumeMatch o acc.1 acc.2 m).1).txns := by
      show Multiset.ofList rest ≤ Multiset.ofList (acc.1.txns.erase m)
      rw [← Multiset.coe_erase]
      have h2 := Multiset.erase_le_erase m hle
      rwa [Multiset.coe_erase, List.erase_cons_head] at h2
    rw [List.foldl_cons]
    rw [ih (consumeMatch o acc.1 acc.2 m) htail]
    exact consumeMatch_keys o acc.1 acc.2 m hm

/-
Partition invariant: claim C8, part 2 (loops and the claim).
-/

theorem applyMatch_keys {m : Matcher} (hsp : MatchesSubPool m) {o : Order} {st : JoinState}
    {o2 : Order} {st2 : JoinState} (h : applyMatch m o st = some (o2, st2)) :
    recKeys st2.records + txnKeys st2.txns = recKeys st.records + txnKeys st.txns := by
  obtain ⟨subset, res, hf, hst2, _⟩ := applyMatch_some h
  obtain ⟨_, _, hres, _⟩ := findMatchSubset_eq_some hf
  rw [hst2]
  apply foldl_consume_keys
  show Multiset.ofList res.txMatches ≤ Multiset.ofList st.txns
  rw [hres]
  exact hsp _ _ _ _ _

theorem processOrderLoop_keys {m : Matcher} (hsp : MatchesSubPool m) :
    ∀ fuel o st,
      recKeys ((processOrderLoop m fuel o st).2).records +
          txnKeys ((processOrderLoop m fuel o st).2).txns =
        recKeys st.records + txnKeys st.txns := by
  intro fuel
  induction fuel with
  | zero => intro o st; rfl
  | succ fuel ih =>
    intro o st
    simp only [processOrderLoop]
    cases ha : applyMatch m o st with
    | none => rfl
    | some pair =>
      obtain ⟨o2, st2⟩ := pair
      rw [ih o2 st2]
      exact applyMatch_keys hsp ha

theorem scanOrders_keys {m : Matcher} (hsp : MatchesSubPool m) :
    ∀ os st,
      recKeys ((scanOrders m os st).2).records + txnKeys ((scanOrders m os st).2).txns =
        recKeys st.records + txnKeys st.txns := by
  intro os
  induction os with
  | nil => intro st; rfl
  | cons o rest ih =>
    intro st
    show recKeys ((scanOrders m rest _).2).records + txnKeys ((scanOrders m rest _).2).txns = _
    rw [ih _]
    exact processOrderLoop_keys hsp (o.shipments.length + 1) o st

theorem runMatchers_keys {ms : List Matcher} (hsp : ∀ m ∈ ms, MatchesSubPool m) :
    ∀ os st,
      recKeys ((runMatchers ms os st).2).records + txnKeys ((runMatchers ms os st).2).txns =
        recKeys st.records + txnKeys st.txns := by
  induction ms with
  | nil => intro os st; rfl
  | cons m mrest ih =>
    intro os st
    simp only [runMatchers]
    rw [ih (fun x hx => hsp x (List.mem_cons_of_mem m hx)) _ _]
    exact scanOrders_keys (hsp m (List.mem_cons_self m mrest)) os st

theorem mkReturnRecord_key (gcs : List GiftCard) (r : Return) (t : Transaction) :
    (mkReturnRecord gcs r t).mintTransactionId = t.id ∧
      (mkReturnRecord gcs r t).amount = t.amount := by
  simp [mkReturnRecord]

theorem matchReturns_keys (gcs : List GiftCard) :
    ∀ rs ts recs,
      recKeys ((matchReturns gcs rs ts recs).2.2) + txnKeys ((matchReturns gcs rs ts recs).2.1) =
        recKeys recs + txnKeys ts := by
  intro rs
  induction rs with
  | nil => intro ts recs; rfl
  | cons r rest ih =>
    intro ts recs
    simp only [matchReturns]
    cases hfind : ts.find? (fun t => returnMatchCond gcs r t) with
    | none => exact ih ts recs
    | some t =>
      have htmem := List.mem_of_find?_eq_some hfind
      rw [ih (ts.erase t) (recs ++ [mkReturnRecord gcs r t])]
      obtain ⟨h1, h2⟩ := mkReturnRecord_key gcs r t
      exact keys_step recs ts (mkReturnRecord gcs r t) t htmem h1 h2

/-- One order descends from another: same identity fields, shipments a
sublist of the original shipments. -/
def OrderFrom (o2 o : Order) : Prop :=
  o2.orderId = o.orderId ∧ o2.orderDate = o.orderDate ∧
    o2.usedGiftCard = o.usedGiftCard ∧ o2.shipments.Sublist o.shipments

theorem OrderFrom.rfl (o : Order) : OrderFrom o o :=
  ⟨Eq.refl _, Eq.refl _, Eq.refl _, List.Sublist.refl _⟩

theorem OrderFrom.trans {o3 o2 o : Order} (h1 : OrderFrom o3 o2) (h2 : OrderFrom o2 o) :
    OrderFrom o3 o :=
  ⟨h1.1.trans h2.1, h1.2.1.trans h2.2.1, h1.2.2.1.trans h2.2.2.1, h1.2.2.2.trans h2.2.2.2⟩

theorem processOrderLoop_from {m : Matcher} :
    ∀ fuel o st, OrderFrom ((processOrderLoop m fuel o st).1) o := by
  intro fuel
  induction fuel with
  | zero => intro o st; exact OrderFrom.rfl o
  | succ fuel ih =>
    intro o st
    simp only [processOrderLoop]
    cases ha : applyMatch m o st with
    | none => exact OrderFrom.rfl o
    | some pair =>
      obtain ⟨o2, st2⟩ := pair
      obtain ⟨subset, res, hf, _, ho2⟩ := applyMatch_some ha
      apply (ih o2 st2).trans
      rw [ho2]
      exact ⟨Eq.refl _, Eq.refl _, Eq.refl _, eraseAll_sublist subset o.shipments⟩

theorem scanOrders_from {m : Matcher} :
    ∀ os st, ∀ o2 ∈ (scanOrders m os st).1, ∃ o ∈ os, OrderFrom o2 o := by
  intro os
  induction os with
  | nil => intro st o2 h; cases h
  | cons o rest ih =>
    intro st o2 h
    simp only [scanOrders] at h
    by_cases hc : ((processOrderLoop m (o.shipments.length + 1) o st).1).shipments.isEmpty
        && !o.shipments.isEmpty
    · rw [if_pos hc] at h
      obtain ⟨x, hx, hfrom⟩ := ih _ o2 h
      exact ⟨x, List.mem_cons_of_mem o hx, hfrom⟩
    · rw [if_neg hc] at h
      rcases List.mem_cons.mp h with rfl | h2
      · exact ⟨o, List.mem_cons_self o rest, processOrderLoop_from _ o st⟩
      · obtain ⟨x, hx, hfrom⟩ := ih _ o2 h2
        exact ⟨x, List.mem_cons_of_mem o hx, hfrom⟩

theorem runMatchers_from {ms : List Matcher} :
    ∀ os st, ∀ o2 ∈ (runMatchers ms os st).1, ∃ o ∈ os, OrderFrom o2 o := by
  induction ms with
  | nil => intro os st o2 h; exact ⟨o2, h, OrderFrom.rfl o2⟩
  | cons m mrest ih =>
    intro os st o2 h
    simp only [runMatchers] at h
    obtain ⟨x, hx, hfrom⟩ := ih _ _ o2 h
    obtain ⟨y, hy, hfrom2⟩ := scanOrders_from os st x hx
    exact ⟨y, hy, hfrom.trans hfrom2⟩

theorem matchReturns_shape (gcs : List GiftCard) :
    ∀ rs ts recs,
      ((matchReturns gcs rs ts recs).1).Sublist rs ∧
        ((matchReturns gcs rs ts recs).2.1).Sublist ts ∧
        (matchReturns gcs rs ts recs).2.2.length + (matchReturns gcs rs ts recs).1.length =
          recs.length + rs.length := by
  intro rs
  induction rs with
  | nil =>
    intro ts recs
    exact ⟨List.Sublist.refl _, List.Sublist.refl _, by simp [matchReturns]⟩
  | cons r rest ih =>
    intro ts recs
    simp only [matchReturns]
    cases hfind : ts.find? (fun t => returnMatchCond gcs r t) with
    | none =>
      obtain ⟨s1, s2, s3⟩ := ih ts recs
      refine ⟨s1.cons₂ r, s2, ?_⟩
      simp only [List.length_cons]
      omega
    | some t =>
      have htmem := List.mem_of_find?_eq_some hfind
      obtain ⟨s1, s2, s3⟩ := ih (ts.erase t) (recs ++ [mkReturnRecord gcs r t])
      refine ⟨s1.cons r, s2.trans (List.erase_sublist t ts), ?_⟩
      rw [List.length_append] at s3
      simp only [List.length_singleton] at s3
      simp only [List.length_cons]
      omega

/-- C8 under the consumption reading of the spec: transaction conservation
(the multiset of record keys plus the keys of the remaining pool equals all
input keys, so each transaction is consumed by at most one record and never
also remains), remaining returns form a sublist of the input, every
remaining order descends from exactly one input order by deleting consumed
shipments, and the second pass consumes one return and one transaction per
record it appends. -/
theorem C8_partition (mintTransactions : List Transaction) (amazonOrders : List Order)
    (amazonReturns : List Return) :
    (recKeys (joinOrders mintTransactions amazonOrders amazonReturns).joinedRecords +
        txnKeys (joinOrders mintTransactions amazonOrders
          amazonReturns).remainingMintTransactions =
      txnKeys mintTransactions) ∧
    ((joinOrders mintTransactions amazonOrders amazonReturns).remainingAmazonReturns).Sublist
      amazonReturns ∧
    (∀ o2 ∈ (joinOrders mintTransactions amazonOrders amazonReturns).remainingAmazonOrders,
      ∃ o ∈ amazonOrders, OrderFrom o2 o) ∧
    (∀ gcs rs ts recs,
      ((matchReturns gcs rs ts recs).1).Sublist rs ∧
        ((matchReturns gcs rs ts recs).2.1).Sublist ts ∧
        (matchReturns gcs rs ts recs).2.2.length + (matchReturns gcs rs ts recs).1.length =
          recs.length + rs.length) := by
  refine ⟨?_, ?_, ?_, fun gcs rs ts recs => matchReturns_shape gcs rs ts recs⟩
  · simp only [joinOrders]
    have hsort : recKeys (List.insertionSort (fun a b : JoinedRecord =>
        a.orderDate ≤ b.orderDate) ((matchReturns ((runMatchers matchers
          (List.insertionSort (fun a b => getTotalAmount (b.shipments.map
            (fun s => s.amount)) ≤ getTotalAmount (a.shipments.map (fun s => s.amount)))
            amazonOrders) ⟨mintTransactions, amazonReturns, [], []⟩).2).giftCards
          ((runMatchers matchers (List.insertionSort (fun a b => getTotalAmount
            (b.shipments.map (fun s => s.amount)) ≤ getTotalAmount (a.shipments.map
            (fun s => s.amount))) amazonOrders)
            ⟨mintTransactions, amazonReturns, [], []⟩).2).returns
          ((runMatchers matchers (List.insertionSort (fun a b => getTotalAmount
            (b.shipments.map (fun s => s.amount)) ≤ getTotalAmount (a.shipments.map
            (fun s => s.amount))) amazonOrders)
            ⟨mintTransactions, amazonReturns, [], []⟩).2).txns
          ((runMatchers matchers (List.insertionSort (fun a b => getTotalAmount
            (b.shipments.map (fun s => s.amount)) ≤ getTotalAmount (a.shipments.map
            (fun s => s.amount))) amazonOrders)
            ⟨mintTransactions, amazonReturns, [], []⟩).2).records).2.2)) =
        recKeys ((matchReturns ((runMatchers matchers (List.insertionSort (fun a b =>
          getTotalAmount (b.shipments.map (fun s => s.amount)) ≤ getTotalAmount
          (a.shipments.map (fun s => s.amount))) amazonOrders)
          ⟨mintTransactions, amazonReturns, [], []⟩).2).giftCards
          ((runMatchers matchers (List.insertionSort (fun a b => getTotalAmount
            (b.shipments.map (fun s => s.amount)) ≤ getTotalAmount (a.shipments.map
            (fun s => s.amount))) amazonOrders)
            ⟨mintTransactions, amazonReturns, [], []⟩).2).returns
          ((runMatchers matchers (List.insertionSort (fun a b => getTotalAmount
            (b.shipments.map (fun s => s.amount)) ≤ getTotalAmount (a.shipments.map
            (fun s => s.amount))) amazonOrders)
            ⟨mintTransactions, amazonReturns, [], []⟩).2).txns
          ((runMatchers matchers (List.insertionSort (fun a b => getTotalAmount
            (b.shipments.map (fun s => s.amount)) ≤ getTotalAmount (a.shipments.map
            (fun s => s.amount))) amazonOrders)
            ⟨mintTransactions, amazonReturns, [], []⟩).2).records).2.2) :=
      Quot.sound ((List.perm_insertionSort _ _).map _)
    rw [hsort, matchReturns_keys, runMatchers_keys matchers_subpool]
    rfl
  · simp only [joinOrders]
    exact ((matchReturns_shape _ _ _ _).1).trans
      (runMatchers_returns_sublist matchers_shrinking _ _)
  · simp only [joinOrders]
    intro o2 h
    obtain ⟨x, hx, hfrom⟩ := runMatchers_from _ _ o2 h
    exact ⟨x, (List.perm_insertionSort _ amazonOrders).subset hx, hfrom⟩


/-
Idempotence: claim C9, part 1 (loop termination and transaction-pool
shrinking).
-/

theorem insertionSort_eq_nil_iff {α : Type} (r : α → α → Prop) [DecidableRel r] (l : List α) :
    List.insertionSort r l = [] ↔ l = [] := by
  constructor
  · intro h
    have hp := (List.perm_insertionSort r l).length_eq
    rw [h, List.length_nil] at hp
    exact List.length_eq_zero.mp hp.symm
  · intro h
    rw [h]
    rfl

/-- Erasing the head of a sublist: the tail is a sublist of the erased
list. -/
theorem sublist_erase_of_cons_sublist {α : Type} [DecidableEq α] {x : α} {c : List α} :
    ∀ {l : List α}, (x :: c).Sublist l → c.Sublist (l.erase x) := by
  intro l
  induction l with
  | nil => intro h; cases h
  | cons y l2 ih =>
    intro h
    by_cases hxy : y = x
    · subst hxy
      rw [List.erase_cons_head]
      cases h with
      | cons _ h2 => exact (List.sublist_cons_self y c).trans h2
      | cons₂ _ h2 => exact h2
    · rw [List.erase_cons_tail (by simpa using hxy)]
      cases h with
      | cons _ h2 => exact (ih h2).cons y
      | cons₂ _ h2 => exact absurd rfl hxy

/-- Erasing every member of a sublist removes exactly its length. -/
theorem eraseFold_length {α : Type} [DecidableEq α] :
    ∀ {c l : List α}, c.Sublist l →
      (c.foldl (fun p x => p.erase x) l).length + c.length = l.length := by
  intro c
  induction c with
  | nil => intro l _; simp
  | cons x c2 ih =>
    intro l h
    have hx : x ∈ l := h.subset (List.mem_cons_self x c2)
    have h2 := ih (sublist_erase_of_cons_sublist h)
    rw [List.foldl_cons]
    have hlen : (l.erase x).length = l.length - 1 := List.length_erase_of_mem hx
    have hpos : 0 < l.length := List.length_pos_of_mem hx
    simp only [List.length_cons]
    omega

/-- Each successful body of the dirty loop removes at least one shipment
from the order. -/
theorem applyMatch_shrinks {m : Matcher} {o : Order} {st : JoinState} {o2 : Order}
    {st2 : JoinState} (h : applyMatch m o st = some (o2, st2)) :
    o2.shipments.length < o.shipments.length := by
  obtain ⟨subset, res, hf, _, ho2⟩ := applyMatch_some h
  obtain ⟨hsub, hne, _, _⟩ := findMatchSubset_eq_some hf
  rw [ho2]
  have hlen := eraseFold_length hsub
  have hpos : 0 < subset.length := List.length_pos.mpr hne
  simp only []
  omega

theorem applyMatch_eq_none_iff {m : Matcher} {o : Order} {st : JoinState} :
    applyMatch m o st = none ↔ findMatchSubset m o st = none := by
  simp only [applyMatch]
  cases findMatchSubset m o st with
  | none => simp
  | some pair =>
    obtain ⟨subset, res⟩ := pair
    simp

/-- Fuel one above the shipment count always reaches the fixed point of the
dirty loop: at its result no further match exists. -/
theorem processOrderLoop_term {m : Matcher} :
    ∀ fuel o st, o.shipments.length < fuel →
      applyMatch m ((processOrderLoop m fuel o st).1) ((processOrderLoop m fuel o st).2) =
        none := by
  intro fuel
  induction fuel with
  | zero => intro o st h; exact absurd h (Nat.not_lt_zero _)
  | succ fuel ih =>
    intro o st h
    simp only [processOrderLoop]
    cases ha : applyMatch m o st with
    | none => exact ha
    | some pair =>
      obtain ⟨o2, st2⟩ := pair
      exact ih o2 st2 (by have := applyMatch_shrinks ha; omega)

theorem processOrderLoop_post {m : Matcher} (o : Order) (st : JoinState) :
    findMatchSubset m ((processOrderLoop m (o.shipments.length + 1) o st).1)
      ((processOrderLoop m (o.shipments.length + 1) o st).2) = none :=
  applyMatch_eq_none_iff.mp (processOrderLoop_term _ o st (Nat.lt_succ_self _))

theorem foldl_consume_txns (o : Order) (ms : List Transaction)
    (acc : JoinState × List JoinedRecordItem) :
    (((ms.foldl (fun a m => consumeMatch o a.1 a.2 m) acc).1).txns).Sublist acc.1.txns := by
  induction ms generalizing acc with
  | nil => exact List.Sublist.refl _
  | cons m ms ih =>
    rw [List.foldl_cons]
    exact (ih _).trans (List.erase_sublist m acc.1.txns)

theorem processMatches_txns (o : Order) (st : JoinState) (us : List Shipment)
    (ms : List Transaction) : ((processMatches o st us ms).txns).Sublist st.txns :=
  foldl_consume_txns o ms (st, flattenItems us)

theorem applyMatch_txns_sublist {m : Matcher} {o : Order} {st : JoinState} {o2 : Order}
    {st2 : JoinState} (h : applyMatch m o st = some (o2, st2)) :
    (st2.txns).Sublist st.txns := by
  obtain ⟨subset, res, hf, hst2, _⟩ := applyMatch_some h
  rw [hst2]
  exact processMatches_txns o _ _ _

theorem processOrderLoop_txns_sublist {m : Matcher} (fuel : Nat) (o : Order)
    (st : JoinState) : (((processOrderLoop m fuel o st).2).txns).Sublist st.txns := by
  induction fuel generalizing o st with
  | zero => exact List.Sublist.refl _
  | succ fuel ih =>
    simp only [processOrderLoop]
    cases ha : applyMatch m o st with
    | none => exact List.Sublist.refl _
    | some pair =>
      obtain ⟨o2, st2⟩ := pair
      exact (ih o2 st2).trans (applyMatch_txns_sublist ha)

theorem scanOrders_txns_sublist {m : Matcher} (os : List Order) (st : JoinState) :
    (((scanOrders m os st).2).txns).Sublist st.txns := by
  induction os generalizing st with
  | nil => exact List.Sublist.refl _
  | cons o rest ih =>
    simp only [scanOrders]
    exact (ih _).trans (processOrderLoop_txns_sublist _ o st)

theorem runMatchers_txns_sublist (ms : List Matcher) (os : List Order) (st : JoinState) :
    (((runMatchers ms os st).2).txns).Sublist st.txns := by
  induction ms generalizing os st with
  | nil => exact List.Sublist.refl _
  | cons m rest ih =>
    simp only [runMatchers]
    exact (ih _ _).trans (scanOrders_txns_sublist os st)


/-
Idempotence: claim C9, part 2 (strategy match emptiness is monotone in the
transaction pool and ignores the shipment group and the returns pool).
-/

theorem getTotalAmount_perm {l1 l2 : List ℚ} (h : l1.Perm l2) :
    getTotalAmount l1 = getTotalAmount l2 := by
  simp only [getTotalAmount]
  rw [foldl_add_eq_sum, foldl_add_eq_sum, h.sum_eq]

/-- When a strategy finds no match on a pool, it finds none on any sub-pool,
for any shipment group and returns pool, against an order with the same date
and gift-card flag. -/
def EmptyMono (m : Matcher) : Prop :=
  ∀ sh sh' amt o o2 rts rts' ts ts2,
    o2.orderDate = o.orderDate → o2.usedGiftCard = o.usedGiftCard →
    ts2.Sublist ts → (m sh amt o rts ts).txMatches = [] →
    (m sh' amt o2 rts' ts2).txMatches = []

theorem getExactMatches_filter_nil {sh : List Shipment} {amt : ℚ} {o : Order}
    {rts : List Return} {ts : List Transaction}
    (h : getExactMatches sh amt o rts ts = []) :
    ((ts.filter (fun t => decide (t.amount < 0))).filter
        (fun t => inRange t.date o.orderDate)).filter
      (fun t => amountsMatch t.amount amt) = [] := by
  by_contra hne
  cases hs : List.insertionSort
      (fun a b => getTimeDelta a.date o.orderDate ≤ getTimeDelta b.date o.orderDate)
      (((ts.filter (fun t => decide (t.amount < 0))).filter
          (fun t => inRange t.date o.orderDate)).filter
        (fun t => amountsMatch t.amount amt)) with
  | nil => exact hne ((insertionSort_eq_nil_iff _ _).mp hs)
  | cons t0 tl =>
    simp only [getExactMatches] at h
    rw [hs] at h
    have h2 : ([t0] : List Transaction) = [] := h
    cases h2

theorem getExactMatches_nil_of_filter {sh : List Shipment} {amt : ℚ} {o : Order}
    {rts : List Return} {ts : List Transaction}
    (h : ((ts.filter (fun t => decide (t.amount < 0))).filter
        (fun t => inRange t.date o.orderDate)).filter
      (fun t => amountsMatch t.amount amt) = []) :
    getExactMatches sh amt o rts ts = [] := by
  simp only [getExactMatches, h]
  rfl

theorem emptyMono_exact : EmptyMono (wrapMatcher getExactMatches) := by
  intro sh sh' amt o o2 rts rts' ts ts2 hdate hflag hts h
  have h1 : getExactMatches sh amt o rts ts = [] := h
  show getExactMatches sh' amt o2 rts' ts2 = []
  apply getExactMatches_nil_of_filter
  rw [hdate]
  have hfil := getExactMatches_filter_nil h1
  have hsub : (((ts2.filter (fun t => decide (t.amount < 0))).filter
      (fun t => inRange t.date o.orderDate)).filter
    (fun t => amountsMatch t.amount amt)).Sublist
      (((ts.filter (fun t => decide (t.amount < 0))).filter
          (fun t => inRange t.date o.orderDate)).filter
        (fun t => amountsMatch t.amount amt)) :=
    List.Sublist.filter _ (List.Sublist.filter _ (List.Sublist.filter _ hts))
  rw [hfil] at hsub
  exact List.sublist_nil.mp hsub

theorem getGiftCardMatches_filter_nil {sh : List Shipment} {amt : ℚ} {o : Order}
    {rts : List Return} {ts : List Transaction} (hg : o.usedGiftCard = true)
    (h : (getGiftCardMatches sh amt o rts ts).txMatches = []) :
    ((ts.filter (fun t => decide (t.amount < 0))).filter
        (fun t => inRange t.date o.orderDate)).filter
      (fun t => decide (amt < t.amount)) = [] := by
  rw [getGiftCardMatches_txMatches, if_pos hg] at h
  by_contra hne
  cases hs : List.insertionSort (fun a b => absQ (a.amount - amt) ≤ absQ (b.amount - amt))
      (((ts.filter (fun t => decide (t.amount < 0))).filter
          (fun t => inRange t.date o.orderDate)).filter
        (fun t => decide (amt < t.amount))) with
  | nil => exact hne ((insertionSort_eq_nil_iff _ _).mp hs)
  | cons t0 tl =>
    rw [hs] at h
    have h2 : ([t0] : List Transaction) = [] := h
    cases h2

theorem getGiftCardMatches_nil_of_filter {sh : List Shipment} {amt : ℚ} {o : Order}
    {rts : List Return} {ts : List Transaction}
    (h : ((ts.filter (fun t => decide (t.amount < 0))).filter
        (fun t => inRange t.date o.orderDate)).filter
      (fun t => decide (amt < t.amount)) = []) :
    (getGiftCardMatches sh amt o rts ts).txMatches = [] := by
  rw [getGiftCardMatches_txMatches]
  by_cases hg : o.usedGiftCard = true
  · rw [if_pos hg, h]
    rfl
  · rw [if_neg hg]

theorem emptyMono_gift : EmptyMono getGiftCardMatches := by
  intro sh sh' amt o o2 rts rts' ts ts2 hdate hflag hts h
  cases hg : o.usedGiftCard with
  | false =>
    rw [getGiftCardMatches_txMatches,
      if_neg (by rw [hflag, hg]; exact Bool.false_ne_true)]
  | true =>
    have hfil := getGiftCardMatches_filter_nil hg h
    apply getGiftCardMatches_nil_of_filter
    rw [hdate]
    have hsub : (((ts2.filter (fun t => decide (t.amount < 0))).filter
        (fun t => inRange t.date o.orderDate)).filter
      (fun t => decide (amt < t.amount))).Sublist
        (((ts.filter (fun t => decide (t.amount < 0))).filter
            (fun t => inRange t.date o.orderDate)).filter
          (fun t => decide (amt < t.amount))) :=
      List.Sublist.filter _ (List.Sublist.filter _ (List.Sublist.filter _ hts))
    rw [hfil] at hsub
    exact List.sublist_nil.mp hsub

theorem getCombinationMatches_ex {sh : List Shipment} {amt : ℚ} {o : Order}
    {rts : List Return} {ts : List Transaction}
    (h : getCombinationMatches sh amt o rts ts ≠ []) :
    ∃ c : List Transaction, c.Sublist (List.insertionSort
        (fun a b => getTimeDelta a.date o.orderDate ≤ getTimeDelta b.date o.orderDate)
        ((ts.filter (fun t => decide (t.amount < 0))).filter
          (fun t => inRange t.date o.orderDate))) ∧ 2 ≤ c.length ∧
      amountsMatch (getTotalAmount (c.map (fun t => t.amount))) amt = true := by
  simp only [getCombinationMatches] at h
  cases hf : ((combinations (List.insertionSort
        (fun a b => getTimeDelta a.date o.orderDate ≤ getTimeDelta b.date o.orderDate)
        ((ts.filter (fun t => decide (t.amount < 0))).filter
          (fun t => inRange t.date o.orderDate)))).filter
      (fun c => decide (2 ≤ c.length))).find?
    (fun c => amountsMatch (getTotalAmount (c.map (fun t => t.amount))) amt) with
  | none => rw [hf] at h; exact absurd rfl h
  | some c =>
    rw [hf] at h
    have hmem := List.mem_of_find?_eq_some hf
    have hpred := List.find?_some hf
    rw [List.mem_filter] at hmem
    exact ⟨c, sublist_of_mem_combinations hmem.1, by simpa using hmem.2, hpred⟩

theorem getCombinationMatches_ne_nil_of {sh : List Shipment} {amt : ℚ} {o : Order}
    {rts : List Return} {ts : List Transaction} {c : List Transaction}
    (hmem : c ∈ (combinations (List.insertionSort
        (fun a b => getTimeDelta a.date o.orderDate ≤ getTimeDelta b.date o.orderDate)
        ((ts.filter (fun t => decide (t.amount < 0))).filter
          (fun t => inRange t.date o.orderDate)))).filter
      (fun c => decide (2 ≤ c.length)))
    (hpred : amountsMatch (getTotalAmount (c.map (fun t => t.amount))) amt = true) :
    getCombinationMatches sh amt o rts ts ≠ [] := by
  simp only [getCombinationMatches]
  cases hf : ((combinations (List.insertionSort
        (fun a b => getTimeDelta a.date o.orderDate ≤ getTimeDelta b.date o.orderDate)
        ((ts.filter (fun t => decide (t.amount < 0))).filter
          (fun t => inRange t.date o.orderDate)))).filter
      (fun c => decide (2 ≤ c.length))).find?
    (fun c => amountsMatch (getTotalAmount (c.map (fun t => t.amount))) amt) with
  | none =>
    rw [List.find?_eq_none] at hf
    exact absurd hpred (hf c hmem)
  | some c2 =>
    have hm2 := List.mem_of_find?_eq_some hf
    rw [List.mem_filter] at hm2
    have hlen : 2 ≤ c2.length := by simpa using hm2.2
    intro hnil
    have h0 : c2 = [] := hnil
    rw [h0, List.length_nil] at hlen
    exact absurd hlen (by omega)

theorem emptyMono_comb : EmptyMono (wrapMatcher getCombinationMatches) := by
  intro sh sh' amt o o2 rts rts' ts ts2 hdate hflag hts h
  have h1 : getCombinationMatches sh amt o rts ts = [] := h
  show getCombinationMatches sh' amt o2 rts' ts2 = []
  by_contra hne
  obtain ⟨c, hsub, hlen, hpred⟩ := getCombinationMatches_ex hne
  rw [hdate] at hsub
  have s1 : c.Subperm ((ts2.filter (fun t => decide (t.amount < 0))).filter
      (fun t => inRange t.date o.orderDate)) :=
    hsub.subperm.trans (List.perm_insertionSort _ _).subperm
  have s2 : c.Subperm ((ts.filter (fun t => decide (t.amount < 0))).filter
      (fun t => inRange t.date o.orderDate)) :=
    s1.trans (List.Sublist.subperm
      (List.Sublist.filter _ (List.Sublist.filter _ hts)))
  have s3 : c.Subperm (List.insertionSort
      (fun a b => getTimeDelta a.date o.orderDate ≤ getTimeDelta b.date o.orderDate)
      ((ts.filter (fun t => decide (t.amount < 0))).filter
        (fun t => inRange t.date o.orderDate))) :=
    s2.trans (List.perm_insertionSort _ _).symm.subperm
  obtain ⟨c2, hcp, hcs⟩ := s3
  have hlen2 : c2.length = c.length := hcp.length_eq
  have hne2 : c2 ≠ [] := by
    intro h0
    rw [h0, List.length_nil] at hlen2
    omega
  have hmem2 : c2 ∈ (combinations (List.insertionSort
      (fun a b => getTimeDelta a.date o.orderDate ≤ getTimeDelta b.date o.orderDate)
      ((ts.filter (fun t => decide (t.amount < 0))).filter
        (fun t => inRange t.date o.orderDate)))).filter
    (fun c => decide (2 ≤ c.length)) :=
    List.mem_filter.mpr ⟨mem_combinations_of_sublist hcs hne2,
      by simp only [decide_eq_true_eq]; omega⟩
  have hpred2 : amountsMatch (getTotalAmount (c2.map (fun t => t.amount))) amt = true := by
    rw [getTotalAmount_perm (hcp.map (fun t => t.amount))]
    exact hpred
  exact getCombinationMatches_ne_nil_of hmem2 hpred2 h1

theorem matchers_emptyMono : ∀ m ∈ matchers, EmptyMono m := by
  intro m hm
  simp only [matchers, List.mem_cons, List.mem_singleton] at hm
  rcases hm with rfl | rfl | h
  · exact emptyMono_exact
  · exact emptyMono_comb
  · rcases h with rfl | h2
    · exact emptyMono_gift
    · cases h2


/-
Idempotence: claim C9, part 3 (the no-match property of an order survives
later passes and later runs).
-/

theorem findMatchSubset_eq_none_iff {m : Matcher} {o : Order} {st : JoinState} :
    findMatchSubset m o st = none ↔
      ∀ c ∈ combinations o.shipments,
        (m c (getTotalAmount (c.map (fun s => s.amount))) o st.returns st.txns).txMatches =
          [] := by
  simp only [findMatchSubset]
  rw [List.findSome?_eq_none_iff]
  constructor
  · intro h c hc
    have h2 := h c (List.mem_reverse.mpr hc)
    simp only at h2
    by_cases he :
        ((m c (getTotalAmount (c.map (fun s => s.amount))) o st.returns
          st.txns).txMatches).isEmpty = true
    · exact List.isEmpty_iff.mp he
    · rw [if_neg he] at h2
      cases h2
  · intro h c hc
    have he : ((m c (getTotalAmount (c.map (fun s => s.amount))) o st.returns
        st.txns).txMatches).isEmpty = true :=
      List.isEmpty_iff.mpr (h c (List.mem_reverse.mp hc))
    simp [he]

/-- Transport of the per-order no-match fact: to a descendant order, a state
with a transaction sub-pool, and any returns pool. -/
theorem noFind_mono {m : Matcher} (hm : EmptyMono m) {o2 o : Order} {st2 st : JoinState}
    (hfrom : OrderFrom o2 o) (hts : (st2.txns).Sublist st.txns)
    (h : findMatchSubset m o st = none) : findMatchSubset m o2 st2 = none := by
  rw [findMatchSubset_eq_none_iff] at h ⊢
  intro c hc
  have hcs : c.Sublist o.shipments := (sublist_of_mem_combinations hc).trans hfrom.2.2.2
  have hcm : c ∈ combinations o.shipments :=
    mem_combinations_of_sublist hcs (ne_nil_of_mem_combinations hc)
  exact hm c c _ o o2 st.returns st2.returns st.txns st2.txns hfrom.2.1 hfrom.2.2.1 hts
    (h c hcm)

/-- After a pass, no surviving order has any matching shipment subset left
for that strategy. -/
def PassDone (m : Matcher) (os : List Order) (st : JoinState) : Prop :=
  ∀ o ∈ os, findMatchSubset m o st = none

theorem scanOrders_post {m : Matcher} (hm : EmptyMono m) :
    ∀ os st, PassDone m ((scanOrders m os st).1) ((scanOrders m os st).2) := by
  intro os
  induction os with
  | nil => intro st o2 h; cases h
  | cons o rest ih =>
    intro st o2 h
    simp only [scanOrders] at h ⊢
    by_cases hc : ((processOrderLoop m (o.shipments.length + 1) o st).1).shipments.isEmpty
        && !o.shipments.isEmpty
    · rw [if_pos hc] at h
      exact ih _ o2 h
    · rw [if_neg hc] at h
      rcases List.mem_cons.mp h with rfl | h2
      · exact noFind_mono hm (OrderFrom.rfl _) (scanOrders_txns_sublist rest _)
          (processOrderLoop_post o st)
      · exact ih _ o2 h2

theorem passDone_scan {m m2 : Matcher} (hm : EmptyMono m) (os : List Order)
    (st : JoinState) (hp : PassDone m os st) :
    PassDone m ((scanOrders m2 os st).1) ((scanOrders m2 os st).2) := by
  intro o2 h
  obtain ⟨o, ho, hfrom⟩ := scanOrders_from os st o2 h
  exact noFind_mono hm hfrom (scanOrders_txns_sublist os st) (hp o ho)

theorem passDone_run {m : Matcher} (hm : EmptyMono m) (ms : List Matcher) (os : List Order)
    (st : JoinState) (hp : PassDone m os st) :
    PassDone m ((runMatchers ms os st).1) ((runMatchers ms os st).2) := by
  intro o2 h
  obtain ⟨o, ho, hfrom⟩ := runMatchers_from os st o2 h
  exact noFind_mono hm hfrom (runMatchers_txns_sublist ms os st) (hp o ho)

/-- At the end of the strategy passes, every surviving order has no matching
shipment subset left for any of the strategies run. -/
theorem runMatchers_post :
    ∀ ms os st, (∀ m ∈ ms, EmptyMono m) →
      ∀ m ∈ ms, PassDone m ((runMatchers ms os st).1) ((runMatchers ms os st).2) := by
  intro ms
  induction ms with
  | nil => intro os st _ m hm; cases hm
  | cons m0 mrest ih =>
    intro os st hall m hm
    simp only [runMatchers]
    rcases List.mem_cons.mp hm with rfl | h2
    · exact passDone_run (hall m hm) mrest _ _ (scanOrders_post (hall m hm) os st)
    · exact ih _ _ (fun x hx => hall x (List.mem_cons_of_mem m0 hx)) m h2


/-
Idempotence: claim C9, part 4 (a run over pools with no matches left is the
identity, and the first run leaves no matches).
-/

theorem processOrderLoop_id {m : Matcher} (o : Order) (st : JoinState) (fuel : Nat)
    (h : findMatchSubset m o st = none) : processOrderLoop m fuel o st = (o, st) := by
  cases fuel with
  | zero => rfl
  | succ f =>
    simp only [processOrderLoop]
    rw [applyMatch_eq_none_iff.mpr h]

theorem scanOrders_id {m : Matcher} :
    ∀ os st, PassDone m os st → scanOrders m os st = (os, st) := by
  intro os
  induction os with
  | nil => intro st h; rfl
  | cons o rest ih =>
    intro st h
    have h1 : processOrderLoop m (o.shipments.length + 1) o st = (o, st) :=
      processOrderLoop_id o st _ (h o (List.mem_cons_self o rest))
    have h2 : scanOrders m rest st = (rest, st) :=
      ih st (fun x hx => h x (List.mem_cons_of_mem o hx))
    simp only [scanOrders, h1, h2]
    simp [Bool.and_not_self]

theorem runMatchers_id :
    ∀ ms os st, (∀ m ∈ ms, PassDone m os st) → runMatchers ms os st = (os, st) := by
  intro ms
  induction ms with
  | nil => intro os st _; rfl
  | cons m0 mrest ih =>
    intro os st h
    have h1 : scanOrders m0 os st = (os, st) :=
      scanOrders_id os st (h m0 (List.mem_cons_self m0 mrest))
    simp only [runMatchers, h1]
    exact ih os st (fun m hm => h m (List.mem_cons_of_mem m0 hm))

theorem matchReturns_id (gcs : List GiftCard) :
    ∀ rs ts recs, (∀ r ∈ rs, ∀ t ∈ ts, returnMatchCond gcs r t = false) →
      matchReturns gcs rs ts recs = (rs, ts, recs) := by
  intro rs
  induction rs with
  | nil => intro ts recs _; rfl
  | cons r rest ih =>
    intro ts recs h
    have hf : ts.find? (fun t => returnMatchCond gcs r t) = none :=
      List.find?_eq_none.mpr (fun t ht => by
        simp [h r (List.mem_cons_self r rest) t ht])
    simp only [matchReturns, hf]
    rw [ih ts recs (fun x hx t ht => h x (List.mem_cons_of_mem r hx) t ht)]

/-- Every surviving return of the second pass fails the match condition
against every surviving transaction. -/
theorem matchReturns_post (gcs : List GiftCard) :
    ∀ rs ts recs, ∀ r ∈ (matchReturns gcs rs ts recs).1,
      ∀ t ∈ (matchReturns gcs rs ts recs).2.1, returnMatchCond gcs r t = false := by
  intro rs
  induction rs with
  | nil =>
    intro ts recs r hr
    simp only [matchReturns] at hr
    exact absurd hr (List.not_mem_nil r)
  | cons r0 rest ih =>
    intro ts recs r hr t ht
    simp only [matchReturns] at hr ht
    cases hfind : ts.find? (fun t => returnMatchCond gcs r0 t) with
    | none =>
      rw [hfind] at hr ht
      simp only at hr ht
      rcases List.mem_cons.mp hr with rfl | hr2
      · have hall := List.find?_eq_none.mp hfind
        have hnot := hall t ((matchReturns_shape gcs rest ts recs).2.1.subset ht)
        cases hcond : returnMatchCond gcs r t
        · rfl
        · exact absurd hcond hnot
      · exact ih ts recs r hr2 t ht
    | some t0 =>
      rw [hfind] at hr ht
      simp only at hr ht
      exact ih (ts.erase t0) (recs ++ [mkReturnRecord gcs r0 t0]) r hr t ht

/-- A pair failing the condition with the recorded gift cards also fails it
with no gift cards at all. -/
theorem returnMatchCond_nil_of {gcs : List GiftCard} {r : Return} {t : Transaction}
    (h : returnMatchCond gcs r t = false) : returnMatchCond [] r t = false := by
  simp only [returnMatchCond] at h ⊢
  simp only [List.find?_nil, Option.isSome_none, Bool.false_or]
  exact ((Bool.or_eq_false_iff).mp h).2


/-
Idempotence: claim C9, part 5 (a run whose inputs admit no matches changes
nothing but the order of the remaining orders, and the amended claim).
-/

/-- A run of joinOrders on pools with no first-phase match against any
surviving order and no second-phase match against any return produces no
records and returns its pools unchanged, except that the remaining orders
come back re-sorted by descending shipment total. -/
theorem joinOrders_fixed (tx2 : List Transaction) (os2 : List Order) (rt2 : List Return)
    (hP : ∀ m ∈ matchers, ∀ o ∈ os2,
      findMatchSubset m o ⟨tx2, rt2, [], []⟩ = none)
    (hR : ∀ r ∈ rt2, ∀ t ∈ tx2, returnMatchCond [] r t = false) :
    (joinOrders tx2 os2 rt2).joinedRecords = [] ∧
      (joinOrders tx2 os2 rt2).remainingMintTransactions = tx2 ∧
      (joinOrders tx2 os2 rt2).remainingAmazonReturns = rt2 ∧
      ((joinOrders tx2 os2 rt2).remainingAmazonOrders).Perm os2 := by
  have h1 : runMatchers matchers (List.insertionSort
      (fun a b => getTotalAmount (b.shipments.map (fun s => s.amount)) ≤
        getTotalAmount (a.shipments.map (fun s => s.amount))) os2)
      ⟨tx2, rt2, [], []⟩ =
      (List.insertionSort (fun a b => getTotalAmount (b.shipments.map (fun s => s.amount)) ≤
        getTotalAmount (a.shipments.map (fun s => s.amount))) os2, ⟨tx2, rt2, [], []⟩) :=
    runMatchers_id _ _ _ (fun m hm o ho =>
      hP m hm o ((List.perm_insertionSort _ os2).subset ho))
  have h2 : matchReturns ([] : List GiftCard) rt2 tx2 [] = (rt2, tx2, []) :=
    matchReturns_id [] rt2 tx2 [] hR
  refine ⟨?_, ?_, ?_, ?_⟩
  · simp only [joinOrders, h1, h2]
    rfl
  · simp only [joinOrders, h1, h2]
  · simp only [joinOrders, h1, h2]
  · simp only [joinOrders, h1, h2]
    exact List.perm_insertionSort _ os2

/-- Amended C9: re-running joinOrders on the remaining outputs of a prior
run manufactures no further matches: the second run produces no joined
records and returns its transaction and return pools unchanged; its
remaining orders are a permutation (the descending-total re-sort) of its
input orders, not necessarily the identical list. -/
theorem C9_idempotence (mintTransactions : List Transaction) (amazonOrders : List Order)
    (amazonReturns : List Return) :
    (joinOrders
        (joinOrders mintTransactions amazonOrders amazonReturns).remainingMintTransactions
        (joinOrders mintTransactions amazonOrders amazonReturns).remainingAmazonOrders
        (joinOrders mintTransactions amazonOrders
          amazonReturns).remainingAmazonReturns).joinedRecords = [] ∧
      (joinOrders
          (joinOrders mintTransactions amazonOrders amazonReturns).remainingMintTransactions
          (joinOrders mintTransactions amazonOrders amazonReturns).remainingAmazonOrders
          (joinOrders mintTransactions amazonOrders
            amazonReturns).remainingAmazonReturns).remainingMintTransactions =
        (joinOrders mintTransactions amazonOrders amazonReturns).remainingMintTransactions ∧
      (joinOrders
          (joinOrders mintTransactions amazonOrders amazonReturns).remainingMintTransactions
          (joinOrders mintTransactions amazonOrders amazonReturns).remainingAmazonOrders
          (joinOrders mintTransactions amazonOrders
            amazonReturns).remainingAmazonReturns).remainingAmazonReturns =
        (joinOrders mintTransactions amazonOrders amazonReturns).remainingAmazonReturns ∧
      ((joinOrders
          (joinOrders mintTransactions amazonOrders amazonReturns).remainingMintTransactions
          (joinOrders mintTransactions amazonOrders amazonReturns).remainingAmazonOrders
          (joinOrders mintTransactions amazonOrders
            amazonReturns).remainingAmazonReturns).remainingAmazonOrders).Perm
        ((joinOrders mintTransactions amazonOrders amazonReturns).remainingAmazonOrders) := by
  apply joinOrders_fixed
  · intro m hm o ho
    simp only [joinOrders] at ho ⊢
    exact noFind_mono (matchers_emptyMono m hm) (OrderFrom.rfl o)
      ((matchReturns_shape _ _ _ _).2.1)
      (runMatchers_post matchers _ _ matchers_emptyMono m hm o ho)
  · intro r hr t ht
    simp only [joinOrders] at hr ht
    exact returnMatchCond_nil_of (matchReturns_post _ _ _ _ r hr t ht)

/-- C9 counterexample data: a lone debit that exactly matches the first
shipment of a two-shipment order. -/
def c9Txn : Transaction := ⟨"t1", -10, 0, []⟩

/-- First order: shipments of -10 and -5, total -15. -/
def c9OrderA : Order :=
  ⟨"A", 0, false, [⟨"s1", 0, -10, [⟨"a", -10⟩]⟩, ⟨"s2", 0, -5, [⟨"b", -5⟩]⟩]⟩

/-- Second order: a single shipment of -12. -/
def c9OrderB : Order := ⟨"B", 0, false, [⟨"s4", 0, -12, [⟨"c", -12⟩]⟩]⟩

/-- C9 is false as stated: the first run leaves order A with only its -5
shipment, so the remaining orders come out as B (total -12) before A (total
-15); the second run re-sorts them by descending total to A (-5) before B
(-12), so its remaining orders differ from its input. -/
theorem C9_counterexample :
    (joinOrders
        (joinOrders [c9Txn] [c9OrderA, c9OrderB] []).remainingMintTransactions
        (joinOrders [c9Txn] [c9OrderA, c9OrderB] []).remainingAmazonOrders
        (joinOrders [c9Txn] [c9OrderA, c9OrderB] []).remainingAmazonReturns
      ).remainingAmazonOrders ≠
      (joinOrders [c9Txn] [c9OrderA, c9OrderB] []).remainingAmazonOrders := by
  decide

end Mal
